import Mathlib

/-!
Verification development for the Video-Scraper repository.

The repository has two pipelines over one CSV ledger of video records:
- Collector (`scrape_videos.py`): `get_youtube_urls`, `get_bilibili_urls`,
  `get_urls` search a platform for candidate URLs and append them.
- Fetcher (`download_videos.py`): `download_videos` and `main` download the
  recorded URLs into per-class directories, tracking success in a `download`
  column.

The definitions below are shallow embeddings of those functions:
pandas DataFrames become lists of structures, the DataFrame integer index
becomes the list position, download primitives become a boolean oracle
`dl : Nat → Bool` giving the (deterministic) result of attempting the row at
a given index, and the file system becomes an explicit record of directories
and files.  Python string operations (`split`, `find`, `in`, `os.path.split`)
are modelled by executable helpers defined here.
-/

namespace VideoScraper

/-! ## String helpers modelling Python primitives -/

/-- Models Python list/character prefix test: `startsWithL nd l` is true iff
`nd` is an initial segment of `l`. -/
def startsWithL : List Char → List Char → Bool
  | [], _ => true
  | _ :: _, [] => false
  | a :: as, b :: bs => a == b && startsWithL as bs

/-- Models Python substring membership `nd in hay` on character lists. -/
def hasSubL (nd : List Char) : List Char → Bool
  | [] => startsWithL nd []
  | c :: rest => startsWithL nd (c :: rest) || hasSubL nd rest

/-- Models Python `nd in hay` for strings. -/
def strContains (hay nd : String) : Bool := hasSubL nd.toList hay.toList

/-- Models Python `hay.find(nd)` on character lists: first index of the
substring, or `-1` when absent. -/
def findSubL (nd : List Char) : List Char → Int
  | [] => if startsWithL nd [] then 0 else -1
  | c :: rest =>
    if startsWithL nd (c :: rest) then 0
    else
      let r := findSubL nd rest
      if r < 0 then -1 else r + 1

/-- Models Python `hay.find(nd)` for strings. -/
def strFind (hay nd : String) : Int := findSubL nd.toList hay.toList

/-- Models Python `s[n:]` for a nonnegative index. -/
def strDrop (s : String) (n : Nat) : String := ⟨s.toList.drop n⟩

/-- Models Python `s[:n]` for a nonnegative index. -/
def strTake (s : String) (n : Nat) : String := ⟨s.toList.take n⟩

/-- Models Python `s.split(sep)[0]` for a one-character separator,
the part of `s` before the first `.` character. -/
def stemOf (s : String) : String := ⟨s.toList.takeWhile (fun c => c != '.')⟩

/-- Models CPython `posixpath.split`: splits at the last `/`; the head keeps
no trailing slashes unless it consists only of slashes. -/
def pathSplit (p : String) : String × String :=
  let rev := p.toList.reverse
  let tail := (rev.takeWhile (fun c => c != '/')).reverse
  let headAll := (rev.dropWhile (fun c => c != '/')).reverse
  let head :=
    if headAll.isEmpty || headAll.all (fun c => c == '/') then headAll
    else (headAll.reverse.dropWhile (fun c => c == '/')).reverse
  (⟨head⟩, ⟨tail⟩)

/-- ASCII lower-casing of one character (platform names are ASCII). -/
def lowerChar (c : Char) : Char :=
  if 'A' ≤ c && c ≤ 'Z' then Char.ofNat (c.toNat + 32) else c

/-- Models Python `s.lower()` for the ASCII platform names compared by
`get_urls`. -/
def strLower (s : String) : String := ⟨s.toList.map lowerChar⟩

/-! ## Scraped DOM elements and the per-platform collectors
(`scrape_videos.py`, `get_youtube_urls` / `get_bilibili_urls`) -/

/-- A scraped DOM element as seen by the collectors: `get_attribute` results
for `href`, `title` and `text` (the YouTube path reads `title`, the Bilibili
path reads `text`; `href` may be absent). -/
structure Elem where
  href : Option String
  title : String
  text : String
deriving DecidableEq, Repr

/-- Loop body of `get_youtube_urls` (src/scrape_videos.py lines 49-66):
skip elements without `href`, skip `(title, url)` pairs in `om`, otherwise
collect and stop once `count >= n`.  `acc` is the reversed list collected so
far. -/
def youtubeGo (n : Int) (om : List (String × String)) :
    List Elem → Nat → List (String × String) → List (String × String)
  | [], _, acc => acc.reverse
  | e :: rest, count, acc =>
    match e.href with
    | none => youtubeGo n om rest count acc
    | some url =>
      if (e.title, url) ∈ om then youtubeGo n om rest count acc
      else if n ≤ ((count + 1 : Nat) : Int) then ((e.title, url) :: acc).reverse
      else youtubeGo n om rest (count + 1) ((e.title, url) :: acc)

/-- Models `get_youtube_urls` applied to the scraped `elements`; the returned
DataFrame becomes the list of `(video_title, video_url)` pairs. -/
def get_youtube_urls (elements : List Elem) (n : Int)
    (om : List (String × String)) : List (String × String) :=
  youtubeGo n om elements 0 []

/-- Loop body of `get_bilibili_urls` (src/scrape_videos.py lines 96-114).
The guard `(url_ is None) | ('video' not in url_)` evaluates both operands,
so an absent `href` raises a `TypeError` (modelled as `.error`) instead of
being skipped. -/
def bilibiliGo (n : Int) (om : List (String × String)) :
    List Elem → Nat → List (String × String) →
    Except String (List (String × String))
  | [], _, acc => .ok acc.reverse
  | e :: rest, count, acc =>
    match e.href with
    | none => .error "TypeError: argument of type NoneType is not iterable"
    | some url =>
      if !strContains url "video" then bilibiliGo n om rest count acc
      else if (e.text, url) ∈ om then bilibiliGo n om rest count acc
      else if n ≤ ((count + 1 : Nat) : Int) then .ok (((e.text, url) :: acc).reverse)
      else bilibiliGo n om rest (count + 1) ((e.text, url) :: acc)

/-- Models `get_bilibili_urls` applied to the scraped `elements`. -/
def get_bilibili_urls (elements : List Elem) (n : Int)
    (om : List (String × String)) : Except String (List (String × String)) :=
  bilibiliGo n om elements 0 []

/-! ## The Collector driver `get_urls` (src/scrape_videos.py lines 129-205) -/

/-- One row of the Collector ledger (`urls` DataFrame).  The source column
named `class` is called `cls` here because `class` is reserved in Lean. -/
structure URow where
  class_id : Int
  cls : String
  video_id : Int
  video_title : String
  video_url : String
deriving DecidableEq, Repr

/-- The `num_videos` argument of `get_urls`: a Python `int`, a `list`, or a
value of any other type. -/
inductive NumVideos where
  | int : Int → NumVideos
  | list : List Int → NumVideos
  | other : NumVideos
deriving DecidableEq, Repr

/-- Models src/scrape_videos.py lines 154-160: broadcast an `int` target to
all classes, check a `list` target has one entry per class (an
`AssertionError` otherwise), and reject any other type (`TypeError`). -/
def resolveNv : NumVideos → Nat → Except String (List Int)
  | .int n, len => .ok (List.replicate len n)
  | .list l, len => if l.length = len then .ok l else .error "AssertionError"
  | .other, _ => .error "TypeError: unsupported type"

/-- The `(video_title, video_url)` pairs already recorded for class `cid`,
the omit list of src/scrape_videos.py line 166. -/
def omitOf (urls : List URow) (cid : Int) : List (String × String) :=
  (urls.filter fun r => r.class_id == cid).map fun r => (r.video_title, r.video_url)

/-- New ledger rows built from a search batch for class `cid`
(src/scrape_videos.py lines 185-188): the batch rows get consecutive
`video_id`s starting at `vid` (the code assigns `range(n_exg, n)`, `vid`
being the number of rows the class already has). -/
def newRowsOf (cid : Int) (cls : String) : Int → List (String × String) → List URow
  | _, [] => []
  | vid, (t, u) :: rest => URow.mk cid cls vid t u :: newRowsOf cid cls (vid + 1) rest

/-- Per-class loop of `get_urls` (src/scrape_videos.py lines 165-191) over
`(class name, target)` pairs with the running `class_id` counter.  `elems`
gives the DOM elements the search backend returns for a keyword string.
Returns the updated in-memory ledger, the list of issued search queries
(keyword strings, in order), and the raised exception when one occurs. -/
def guLoop (elems : String → List Elem) (platform addkw : String) :
    List (String × Int) → Int → List URow →
    List URow × List String × Option String
  | [], _, urls => (urls, [], none)
  | (cls, n) :: rest, cid, urls =>
    let om := omitOf urls cid
    if n ≤ (om.length : Int) then guLoop elems platform addkw rest (cid + 1) urls
    else
      let keywords := cls ++ " " ++ addkw
      let nNew := n - (om.length : Int)
      if strLower platform == "youtube" then
        let batch := get_youtube_urls (elems keywords) nNew om
        let out := guLoop elems platform addkw rest (cid + 1)
          (urls ++ newRowsOf cid cls (om.length : Int) batch)
        (out.1, keywords :: out.2.1, out.2.2)
      else if strLower platform == "bilibili" then
        match get_bilibili_urls (elems keywords) nNew om with
        | .error e => (urls, [keywords], some e)
        | .ok batch =>
          let out := guLoop elems platform addkw rest (cid + 1)
            (urls ++ newRowsOf cid cls (om.length : Int) batch)
          (out.1, keywords :: out.2.1, out.2.2)
      else (urls, [], some "ValueError: platform not supported")

/-- Ordering used by the final `sort_values(["class_id", "video_id"])`. -/
def ledgerLE (a b : URow) : Bool :=
  a.class_id < b.class_id || (a.class_id == b.class_id && a.video_id ≤ b.video_id)

/-- Insertion into a sorted ledger. -/
def insertRow (r : URow) : List URow → List URow
  | [] => [r]
  | s :: rest => if ledgerLE r s then r :: s :: rest else s :: insertRow r rest

/-- Models the final re-sort of the ledger by `(class_id, video_id)`
(src/scrape_videos.py line 193).  An insertion sort stands in for the pandas
sort; the claims only depend on the result being a reordering. -/
def sortLedger (l : List URow) : List URow := l.foldr insertRow []

/-- Observable outcome of one `get_urls` run. -/
structure GUOut where
  /-- The run created the (missing) ledger file, src/scrape_videos.py
  lines 149-152; this happens before any validation. -/
  created : Bool
  /-- Keyword strings of the search-backend queries issued. -/
  queries : List String
  /-- The exception raised, if any. -/
  err : Option String
  /-- The ledger rows at the end of the run (at the raise point when an
  exception occurs). -/
  ledger : List URow
  /-- The final export (line 204) was reached. -/
  savedTo : Bool
deriving DecidableEq, Repr

/-- Models `get_urls` (src/scrape_videos.py lines 129-205).  `fileLedger` is
the on-disk ledger (`none` when the file does not exist, in which case an
empty one is created); `elems` is the search backend. -/
def get_urls (elems : String → List Elem) (fileLedger : Option (List URow))
    (classes : List String) (numVideos : NumVideos)
    (addkw platform : String) : GUOut :=
  let urls0 := fileLedger.getD []
  let created := fileLedger.isNone
  match resolveNv numVideos classes.length with
  | .error e => ⟨created, [], some e, urls0, false⟩
  | .ok nv =>
    match guLoop elems platform addkw (classes.zip nv) 0 urls0 with
    | (urls, qs, some e) => ⟨created, qs, some e, urls, false⟩
    | (urls, qs, none) => ⟨created, qs, none, sortLedger urls, true⟩

/-! ## The Fetcher (`download_videos.py`) -/

/-- One row of the Fetcher ledger (the `videos` DataFrame).  The source
column named `class` is called `cls` here. -/
structure VRow where
  class_id : Int
  cls : String
  video_id : Int
  video_title : String
  video_url : String
  video_name : String
  download : Bool
deriving DecidableEq, Repr

/-- State of the output directory tree: the root, the per-class
subdirectories that exist (by class id), the files inside class directories
as `(class id, file name)` pairs, and stray entries directly under the
root. -/
structure FS where
  rootExists : Bool
  classDirs : List Int
  files : List (Int × String)
  rootFiles : List String
deriving DecidableEq, Repr

/-- Models `videos[["class_id", "class"]].drop_duplicates()`
(src/download_videos.py line 29): first occurrence of each pair is kept, in
order. -/
def dedupFirst (seen : List (Int × String)) :
    List (Int × String) → List (Int × String)
  | [] => []
  | x :: xs =>
    if x ∈ seen then dedupFirst seen xs else x :: dedupFirst (x :: seen) xs

/-- The `(class_id, class)` pairs the Fetcher iterates over. -/
def classesOf (videos : List VRow) : List (Int × String) :=
  dedupFirst [] (videos.map fun r => (r.class_id, r.cls))

/-- Models `sum(videos_by_class["download"])` (src/download_videos.py
line 33): the number of rows of class `cid` already marked downloaded. -/
def countDownloaded (videos : List VRow) (cid : Int) : Nat :=
  (videos.filter fun r => r.class_id == cid && r.download).length

/-- The cap test of src/download_videos.py lines 43-45: break when a cap is
set and `count_by_class >= cap`. -/
def capReached : Option Int → Nat → Bool
  | none, _ => false
  | some k, c => decide (k ≤ (c : Int))

/-- Result of one class's download loop. -/
structure PassOut where
  /-- The whole `videos` table after the loop. -/
  rows : List VRow
  /-- The final `count_by_class`. -/
  count : Nat
  /-- File names written into the class directory by successful downloads. -/
  newFiles : List String
  /-- List positions of the rows for which a download request was issued. -/
  attempts : List Nat
deriving DecidableEq, Repr

/-- The per-class row loop (src/download_videos.py lines 42-56) as one pass
over the whole table: rows of other classes pass through untouched, and at
each row of class `cid` the loop breaks when the cap is reached, skips rows
already marked downloaded, and otherwise issues a download whose success is
`dl i` (`i` the row's position, standing for the DataFrame index), records
the result in the `download` column, and on success writes the file
`video_name ++ ext`. -/
def classPass (dl : Nat → Bool) (cap : Option Int) (cid : Int) (ext : String) :
    List VRow → Nat → Nat → PassOut
  | [], _, count => ⟨[], count, [], []⟩
  | r :: rest, i, count =>
    if r.class_id == cid then
      if capReached cap count then ⟨r :: rest, count, [], []⟩
      else if r.download then
        let o := classPass dl cap cid ext rest (i + 1) count
        ⟨r :: o.rows, o.count, o.newFiles, o.attempts⟩
      else
        let d := dl i
        let o := classPass dl cap cid ext rest (i + 1) (count + cond d 1 0)
        ⟨{ r with download := d } :: o.rows, o.count,
          (cond d [r.video_name ++ ext] []) ++ o.newFiles, i :: o.attempts⟩
    else
      let o := classPass dl cap cid ext rest (i + 1) count
      ⟨r :: o.rows, o.count, o.newFiles, o.attempts⟩

/-- One class's download loop started, as in the source, at position 0 with
`count_by_class` initialised to the class's downloaded total. -/
def processClass (dl : Nat → Bool) (cap : Option Int) (ext : String)
    (cid : Int) (videos : List VRow) : PassOut :=
  classPass dl cap cid ext videos 0 (countDownloaded videos cid)

/-- File-system effect of one class iteration (src/download_videos.py
lines 36-38, 51-53, 61-64): create the class directory if missing, add the
files written by successful downloads, then `os.rmdir` the class directory —
which succeeds exactly when it holds no files. -/
def stepFS (cid : Int) (newFiles : List String) (fs : FS) : FS :=
  let fs1 := { fs with classDirs :=
    if cid ∈ fs.classDirs then fs.classDirs else fs.classDirs ++ [cid] }
  let fs2 := { fs1 with files := fs1.files ++ newFiles.map fun f => (cid, f) }
  if (fs2.files.filter fun p => p.1 == cid).isEmpty then
    { fs2 with classDirs := fs2.classDirs.filter fun c => !(c == cid) }
  else fs2

/-- The loop over classes (src/download_videos.py lines 31-64): create the
class directory, run the row loop, record the created files, then remove the
class directory again when it holds no files.  Returns the final table, file
system, `count_tracker` records and all attempted row positions. -/
def downloadLoop (dl : Nat → Bool) (cap : Option Int) (ext : String) :
    List (Int × String) → List VRow → FS →
    List VRow × FS × List (Int × String × Nat) × List Nat
  | [], videos, fs => (videos, fs, [], [])
  | (cid, cls) :: rest, videos, fs =>
    let o := processClass dl cap ext cid videos
    let out := downloadLoop dl cap ext rest o.rows (stepFS cid o.newFiles fs)
    (out.1, out.2.1, (cid, cls, o.count) :: out.2.2.1, o.attempts ++ out.2.2.2)

/-- Observable outcome of one `download_videos` run. -/
structure DVOut where
  /-- The returned `videos` table. -/
  videos : List VRow
  /-- The output directory tree after the run. -/
  fs : FS
  /-- The `count_tracker` records `(class_id, class, count)`. -/
  counts : List (Int × String × Nat)
  /-- Positions of all rows for which a download request was issued. -/
  attempts : List Nat
  /-- The final `os.rmdir(output_root)` raised (line 73 has no handler). -/
  crashed : Bool
deriving DecidableEq, Repr

/-- Models `download_videos` (src/download_videos.py lines 14-75): create the
output root, loop over the classes, and at the end remove the root when the
summed count is zero — `os.rmdir` succeeds only on an empty root and
otherwise raises. -/
def download_videos (dl : Nat → Bool) (videos : List VRow) (fs : FS)
    (cap : Option Int) (ext : String) : DVOut :=
  let fs0 := { fs with rootExists := true }
  let out := downloadLoop dl cap ext (classesOf videos) videos fs0
  let recs := out.2.2.1
  let total : Nat := (recs.map fun t => t.2.2).foldl (· + ·) 0
  if 0 < total then ⟨out.1, out.2.1, recs, out.2.2.2, false⟩
  else if out.2.1.classDirs.isEmpty && out.2.1.rootFiles.isEmpty then
    ⟨out.1, { out.2.1 with rootExists := false }, recs, out.2.2.2, false⟩
  else ⟨out.1, out.2.1, recs, out.2.2.2, true⟩

/-! ## The Fetcher entry point `main` (src/download_videos.py lines 157-192) -/

/-- One step of the resume scan (src/download_videos.py line 182): mark every
row whose `video_name` equals the part of the file name before its first `.`
as downloaded. -/
def markFile (stem : String) (videos : List VRow) : List VRow :=
  videos.map fun r =>
    if r.video_name == stem then { r with download := true } else r

/-- The nested directory scan of src/download_videos.py lines 180-182,
flattened to the list of `(class directory, file name)` entries. -/
def markScan (files : List (Int × String)) (videos : List VRow) : List VRow :=
  files.foldl (fun v p => markFile (stemOf p.2) v) videos

/-- The resume phase of `main` (src/download_videos.py lines 177-182): reset
every `download` flag to `False`, then mark rows matched by files on disk. -/
def mainMark (files : List (Int × String)) (videos : List VRow) : List VRow :=
  markScan files (videos.map fun r => { r with download := false })

/-- Models `main` after CSV loading: the resume scan over the existing output
tree followed by the download pass. -/
def mainRun (dl : Nat → Bool) (videos : List VRow) (fs : FS)
    (cap : Option Int) (ext : String) : DVOut :=
  download_videos dl (mainMark fs.files videos) fs cap ext

/-- Models `_get_youtube_video_id` (src/download_videos.py lines 131-143):
the last non-empty path component feeding the `v=` extraction. -/
def vidComponent (video_url : String) : String :=
  let sp := pathSplit video_url
  if sp.2.length == 0 then (pathSplit sp.1).2 else sp.2

/-- The `v=` / `&` slice arithmetic of src/download_videos.py lines 139-141:
`ss = find("v=") + 2`, `ee = ss + rest.find("&")`, result `vid[ss:ee]`
(the slice has length `ee - ss`, the `find("&")` result). -/
def extractV (vid : String) : String :=
  strTake (strDrop vid (strFind vid "v=" + 2).toNat)
    (strFind (strDrop vid (strFind vid "v=" + 2).toNat) "&").toNat

/-- Models `_get_youtube_video_id`; the `assert "youtube" in video_url`
failure is modelled as `none`. -/
def getYoutubeVideoId (video_url : String) : Option String :=
  if strContains video_url "youtube" then some (extractV (vidComponent video_url))
  else none

/-! ## Derived notions used by the statements -/

/-- The `video_id` column of class `cid`, in ledger order. -/
def classVids (urls : List URow) (cid : Int) : List Int :=
  (urls.filter fun r => r.class_id == cid).map fun r => r.video_id

/-- The consecutive integers `v, v + 1, ..., v + k - 1`. -/
def rangeFrom (v : Int) : Nat → List Int
  | 0 => []
  | k + 1 => v :: rangeFrom (v + 1) k

/-- A dense zero-based id sequence: some ordering of `0, ..., length - 1`. -/
def DenseZero (l : List Int) : Prop :=
  l.Perm ((List.range l.length).map Int.ofNat)

instance (l : List Int) : Decidable (DenseZero l) :=
  inferInstanceAs (Decidable (l.Perm _))

/-- A one-element search backend used to instantiate theorems. -/
def elemsW : String → List Elem := fun _ => [Elem.mk (some "u1") "t1" "x1"]

/-- The ledger transformation of `download_videos` in isolation: the
per-class row passes applied in class order, without the file-system
bookkeeping (which the rows never depend on). -/
def passesOnly (dl : Nat → Bool) (cap : Option Int) (ext : String) :
    List (Int × String) → List VRow → List VRow
  | [], v => v
  | (cid, _) :: rest, v =>
    passesOnly dl cap ext rest (processClass dl cap ext cid v).rows

/-- Tables agreeing in length, in every row's `class_id`, and exactly on the
rows of class `cid`. -/
def RelCid (cid : Int) (v w : List VRow) : Prop :=
  v.length = w.length ∧ ∀ (j : Nat) (r s : VRow), v[j]? = some r →
    w[j]? = some s → r.class_id = s.class_id ∧ (r.class_id = cid → r = s)

/-- A table on which the download pass for class `cid` changes nothing. -/
def FixedCid (dl : Nat → Bool) (cap : Option Int) (ext : String) (cid : Int)
    (v : List VRow) : Prop :=
  (processClass dl cap ext cid v).rows = v

/-! ## Basic facts about the helpers -/

theorem strTake_zero (s : String) : strTake s 0 = "" := by
  have : s.toList.take 0 = [] := rfl
  simp [strTake, this]

/-! ## C10: `_get_youtube_video_id` on watch URLs without `&` -/

/-- C10: for every URL accepted by the `youtube` assertion whose last
non-empty path component contains `v=` but no `&` after it, the extracted
video id is the empty string (so the derived `video_name` filename stem is
empty). -/
theorem c10_video_id_empty (url : String)
    (hy : strContains url "youtube" = true)
    (hv : 0 ≤ strFind (vidComponent url) "v=")
    (ha : strFind (strDrop (vidComponent url)
      (strFind (vidComponent url) "v=" + 2).toNat) "&" = -1) :
    getYoutubeVideoId url = some "" := by
  unfold getYoutubeVideoId
  rw [if_pos hy]
  unfold extractV
  rw [ha]
  rfl

/-- Witness for C10 at the URL from the claim. -/
theorem c10_video_id_empty_witness :
    strContains "https://www.youtube.com/watch?v=abc123" "youtube" = true ∧
    getYoutubeVideoId "https://www.youtube.com/watch?v=abc123" = some "" :=
  ⟨by decide, c10_video_id_empty _ (by decide) (by decide) (by decide)⟩

/-! ## C9: absent `href` in the two collectors -/

/-- C9 (amended): whenever the scan reaches an element whose `href`
attribute is absent, the Bilibili loop raises a `TypeError` (because
`(url_ is None) | ('video' not in url_)` evaluates both operands), while the
YouTube loop skips the element and continues normally.  Reaching the element
is expressed by quantifying over the loop state `(count, acc)` at that
element. -/
theorem c9_absent_href (n : Int) (om : List (String × String)) (e : Elem)
    (rest : List Elem) (count : Nat) (acc : List (String × String))
    (h : e.href = none) :
    bilibiliGo n om (e :: rest) count acc =
      .error "TypeError: argument of type NoneType is not iterable" ∧
    youtubeGo n om (e :: rest) count acc = youtubeGo n om rest count acc := by
  constructor
  · rw [bilibiliGo, h]
  · rw [youtubeGo, h]

/-- Witness for C9 at a concrete element and loop state. -/
theorem c9_absent_href_witness :
    bilibiliGo 2 [] [Elem.mk none "t" "x"] 0 [] =
      .error "TypeError: argument of type NoneType is not iterable" ∧
    youtubeGo 2 [] [Elem.mk none "t" "x"] 0 [] = youtubeGo 2 [] [] 0 [] :=
  c9_absent_href 2 [] (Elem.mk none "t" "x") [] 0 [] rfl

/-- Counterexample to C9 as stated: a scraped list that contains an element
with absent `href` on which `get_bilibili_urls` nevertheless returns
normally, because the loop breaks at the quota before reaching it. -/
theorem c9_counterexample :
    (Elem.mk none "t2" "x2").href = none ∧
    get_bilibili_urls
      [Elem.mk (some "https://www.bilibili.com/video/BV1") "t" "txt",
       Elem.mk none "t2" "x2"] 1 [] =
      .ok [("txt", "https://www.bilibili.com/video/BV1")] := by
  exact ⟨rfl, by rfl⟩

/-! ## C2: the collectors never return a pair from the omit list -/

theorem youtubeGo_not_mem (n : Int) (om : List (String × String)) :
    ∀ (l : List Elem) (count : Nat) (acc : List (String × String)),
      (∀ v ∈ acc, v ∉ om) → ∀ v ∈ youtubeGo n om l count acc, v ∉ om := by
  intro l
  induction l with
  | nil =>
    intro count acc hacc v hv
    rw [youtubeGo] at hv
    exact hacc v (List.mem_reverse.mp hv)
  | cons e rest ih =>
    intro count acc hacc v hv
    cases h : e.href with
    | none =>
      simp only [youtubeGo, h] at hv
      exact ih count acc hacc v hv
    | some url =>
      simp only [youtubeGo, h] at hv
      by_cases hm : (e.title, url) ∈ om
      · rw [if_pos hm] at hv
        exact ih count acc hacc v hv
      · rw [if_neg hm] at hv
        by_cases hn : n ≤ ((count + 1 : Nat) : Int)
        · rw [if_pos hn] at hv
          rcases List.mem_cons.mp (List.mem_reverse.mp hv) with h1 | h1
          · exact h1 ▸ hm
          · exact hacc v h1
        · rw [if_neg hn] at hv
          refine ih (count + 1) _ ?_ v hv
          intro w hw
          rcases List.mem_cons.mp hw with h1 | h1
          · exact h1 ▸ hm
          · exact hacc w h1

theorem bilibiliGo_not_mem (n : Int) (om : List (String × String)) :
    ∀ (l : List Elem) (count : Nat) (acc : List (String × String)),
      (∀ v ∈ acc, v ∉ om) →
      ∀ res, bilibiliGo n om l count acc = .ok res → ∀ v ∈ res, v ∉ om := by
  intro l
  induction l with
  | nil =>
    intro count acc hacc res hres v hv
    rw [bilibiliGo] at hres
    cases hres
    exact hacc v (List.mem_reverse.mp hv)
  | cons e rest ih =>
    intro count acc hacc res hres v hv
    cases h : e.href with
    | none =>
      simp only [bilibiliGo, h] at hres
      exact Except.noConfusion hres
    | some url =>
      simp only [bilibiliGo, h] at hres
      cases hvid : strContains url "video" with
      | false =>
        rw [hvid] at hres
        simp only [Bool.not_false, if_true] at hres
        exact ih count acc hacc res hres v hv
      | true =>
        rw [hvid] at hres
        simp only [Bool.not_true, Bool.false_eq_true, if_false] at hres
        by_cases hm : (e.text, url) ∈ om
        · rw [if_pos hm] at hres
          exact ih count acc hacc res hres v hv
        · rw [if_neg hm] at hres
          by_cases hn : n ≤ ((count + 1 : Nat) : Int)
          · rw [if_pos hn] at hres
            cases hres
            rcases List.mem_cons.mp (List.mem_reverse.mp hv) with h1 | h1
            · exact h1 ▸ hm
            · exact hacc v h1
          · rw [if_neg hn] at hres
            refine ih (count + 1) _ ?_ res hres v hv
            intro w hw
            rcases List.mem_cons.mp hw with h1 | h1
            · exact h1 ▸ hm
            · exact hacc w h1

/-- C2: neither collector ever returns a `(video_title, video_url)` pair
from the omit list — in `get_urls` the omit list is exactly the set of pairs
already recorded for the class, so no appended record duplicates a pair
already present for its class id, on either search path. -/
theorem c2_collector_dedup (elements : List Elem) (n : Int)
    (om : List (String × String)) :
    (∀ v ∈ get_youtube_urls elements n om, v ∉ om) ∧
    (∀ res, get_bilibili_urls elements n om = .ok res → ∀ v ∈ res, v ∉ om) :=
  ⟨youtubeGo_not_mem n om elements 0 [] (by intro v hv; cases hv),
   bilibiliGo_not_mem n om elements 0 [] (by intro v hv; cases hv)⟩

/-! ## C5: configuration errors in `get_urls` -/

theorem guLoop_unsupported (elems : String → List Elem) (platform addkw : String)
    (hy : strLower platform ≠ "youtube") (hb : strLower platform ≠ "bilibili") :
    ∀ (pairs : List (String × Int)) (cid : Int) (urls : List URow),
      guLoop elems platform addkw pairs cid urls = (urls, [], none) ∨
      guLoop elems platform addkw pairs cid urls =
        (urls, [], some "ValueError: platform not supported") := by
  have hy' : (strLower platform == "youtube") = false := beq_eq_false_iff_ne.mpr hy
  have hb' : (strLower platform == "bilibili") = false := beq_eq_false_iff_ne.mpr hb
  intro pairs
  induction pairs with
  | nil =>
    intro cid urls
    left
    rfl
  | cons p rest ih =>
    intro cid urls
    obtain ⟨cls, n⟩ := p
    by_cases hskip : n ≤ ((omitOf urls cid).length : Int)
    · have hstep : guLoop elems platform addkw ((cls, n) :: rest) cid urls =
          guLoop elems platform addkw rest (cid + 1) urls := by
        rw [guLoop, if_pos hskip]
      rw [hstep]
      exact ih (cid + 1) urls
    · right
      rw [guLoop, if_neg hskip, hy', hb']
      simp

/-- C5 (amended): a malformed `num_videos` list makes `get_urls` raise
`AssertionError` with no query issued, no record appended and no save — but
only after the empty ledger file has been created when it was missing
(`created` records that side effect, which precedes all validation).  An
unsupported platform never issues a query and never appends a record; when
it raises, the ledger is unchanged and unsaved, and when no class needs new
videos it does not raise at all and merely re-sorts and saves the ledger. -/
theorem c5_config_errors (elems : String → List Elem)
    (fileLedger : Option (List URow)) (classes : List String)
    (numVideos : NumVideos) (addkw platform : String) :
    (∀ l, numVideos = .list l → l.length ≠ classes.length →
      get_urls elems fileLedger classes numVideos addkw platform =
        ⟨fileLedger.isNone, [], some "AssertionError", fileLedger.getD [], false⟩) ∧
    (strLower platform ≠ "youtube" → strLower platform ≠ "bilibili" →
      (get_urls elems fileLedger classes numVideos addkw platform).queries = [] ∧
      ((get_urls elems fileLedger classes numVideos addkw platform).err.isSome →
        (get_urls elems fileLedger classes numVideos addkw platform).ledger =
          fileLedger.getD [] ∧
        (get_urls elems fileLedger classes numVideos addkw platform).savedTo =
          false) ∧
      ((get_urls elems fileLedger classes numVideos addkw platform).err = none →
        (get_urls elems fileLedger classes numVideos addkw platform).ledger =
          sortLedger (fileLedger.getD []) ∧
        (get_urls elems fileLedger classes numVideos addkw platform).savedTo =
          true)) := by
  constructor
  · intro l hl hlen
    subst hl
    unfold get_urls
    have : resolveNv (.list l) classes.length = .error "AssertionError" := by
      rw [resolveNv, if_neg hlen]
    rw [this]
  · intro hy hb
    cases hnv : resolveNv numVideos classes.length with
    | error e =>
      unfold get_urls
      rw [hnv]
      refine ⟨rfl, fun _ => ⟨rfl, rfl⟩, fun hc => ?_⟩
      exact Option.noConfusion hc
    | ok nv =>
      rcases guLoop_unsupported elems platform addkw hy hb (classes.zip nv) 0
        (fileLedger.getD []) with h | h
      · refine ⟨?_, fun hc => ?_, fun _ => ⟨?_, ?_⟩⟩
        · simp only [get_urls, hnv, h]
        · simp only [get_urls, hnv, h] at hc
          simp at hc
        · simp only [get_urls, hnv, h]
        · simp only [get_urls, hnv, h]
      · refine ⟨?_, fun _ => ⟨?_, ?_⟩, fun hc => ?_⟩
        · simp only [get_urls, hnv, h]
        · simp only [get_urls, hnv, h]
        · simp only [get_urls, hnv, h]
        · simp only [get_urls, hnv, h] at hc
          simp at hc

/-- Witness for C5 (amended) at concrete inputs. -/
theorem c5_config_errors_witness :
    (get_urls (fun _ => []) none ["cat"] (.list [1, 2]) "" "youtube" =
      ⟨true, [], some "AssertionError", [], false⟩) ∧
    (get_urls (fun _ => []) none ["cat"] (.int 1) "" "vimeo").queries = [] :=
  ⟨(c5_config_errors (fun _ => []) none ["cat"] (.list [1, 2]) "" "youtube").1
      [1, 2] rfl (by decide),
   ((c5_config_errors (fun _ => []) none ["cat"] (.int 1) "" "vimeo").2
      (by decide) (by decide)).1⟩

/-- Counterexample to C5 as stated: with a missing ledger file and an
unsupported platform, the run does raise, but only after creating the ledger
file — `created = true` records a write that precedes the raise, so the
error is not raised before every side effect. -/
theorem c5_counterexample :
    (get_urls (fun _ => []) none ["cat"] (.int 1) "" "vimeo").created = true ∧
    (get_urls (fun _ => []) none ["cat"] (.int 1) "" "vimeo").err =
      some "ValueError: platform not supported" := by
  constructor
  · rfl
  · rfl

/-! ## Structure update helpers for `VRow` -/

theorem vrow_update_eta (r : VRow) : ({ r with download := r.download }) = r := by
  cases r
  rfl

theorem vrow_update_update (r : VRow) (a b : Bool) :
    ({ { r with download := a } with download := b }) = { r with download := b } := by
  cases r
  rfl

/-! ## C8: the resume scan of `main` -/

theorem markFile_getElem? (stem : String) (v : List VRow) (j : Nat) (r : VRow)
    (h : v[j]? = some r) :
    (markFile stem v)[j]? =
      some (if r.video_name == stem then { r with download := true } else r) := by
  unfold markFile
  rw [List.getElem?_map, h]
  rfl

theorem markScan_getElem? (files : List (Int × String)) :
    ∀ (v : List VRow) (j : Nat) (r : VRow), v[j]? = some r →
      (markScan files v)[j]? = some { r with download :=
        (r.download || files.any fun p => r.video_name == stemOf p.2) } := by
  induction files with
  | nil =>
    intro v j r h
    simp only [markScan, List.foldl_nil, List.any_nil, Bool.or_false, h,
      vrow_update_eta]
  | cons f fs ih =>
    intro v j r h
    have hstep : markScan (f :: fs) v = markScan fs (markFile (stemOf f.2) v) := rfl
    rw [hstep]
    by_cases hm : (r.video_name == stemOf f.2) = true
    · have h1 : (markFile (stemOf f.2) v)[j]? = some { r with download := true } := by
        rw [markFile_getElem? _ _ _ _ h, if_pos hm]
      have h2 := ih _ j _ h1
      simp only [vrow_update_update, Bool.true_or] at h2
      rw [h2]
      simp [List.any_cons, hm]
    · have h1 : (markFile (stemOf f.2) v)[j]? = some r := by
        rw [markFile_getElem? _ _ _ _ h, if_neg hm]
      have h2 := ih _ j _ h1
      rw [h2]
      have hm' : (r.video_name == stemOf f.2) = false := by
        simpa using hm
      simp [List.any_cons, hm']

theorem mainMark_getElem? (files : List (Int × String)) (videos : List VRow)
    (j : Nat) (r : VRow) (h : videos[j]? = some r) :
    (mainMark files videos)[j]? =
      some { r with download := files.any fun p => r.video_name == stemOf p.2 } := by
  have h0 : (videos.map fun s => { s with download := false })[j]? =
      some { r with download := false } := by
    rw [List.getElem?_map, h]
    rfl
  have h1 := markScan_getElem? files _ j _ h0
  simpa [vrow_update_update, Bool.false_or] using h1

/-- C8: the resume phase of `main` overwrites any persisted `download`
column: after it, a row's `download` flag is true exactly when some file
anywhere under the output root — in any class directory — has the row's
`video_name` as the part of its name before the first dot; every other field
is unchanged. -/
theorem c8_resume_scan (files : List (Int × String)) (videos : List VRow)
    (j : Nat) (r : VRow) (h : videos[j]? = some r) :
    (mainMark files videos)[j]? =
      some { r with download := files.any fun p => r.video_name == stemOf p.2 } :=
  mainMark_getElem? files videos j r h

/-- Witness for C8: the persisted flag `true` is discarded when no file
matches, and a file in a different class directory marks the row. -/
theorem c8_resume_scan_witness :
    (mainMark [(1, "other.mp4")]
      [VRow.mk 0 "c" 0 "t" "u" "n" true])[0]? =
      some (VRow.mk 0 "c" 0 "t" "u" "n" false) ∧
    (mainMark [(1, "n.mp4")]
      [VRow.mk 0 "c" 0 "t" "u" "n" false])[0]? =
      some (VRow.mk 0 "c" 0 "t" "u" "n" true) :=
  ⟨c8_resume_scan [(1, "other.mp4")] [VRow.mk 0 "c" 0 "t" "u" "n" true] 0 _ rfl,
   c8_resume_scan [(1, "n.mp4")] [VRow.mk 0 "c" 0 "t" "u" "n" false] 0 _ rfl⟩

/-- Witness for C2 on concrete element lists and omit lists. -/
theorem c2_collector_dedup_witness :
    ("t2", "u2") ∉ [(("t1", "u1") : String × String)] ∧
    ("tx", "https://b/video/1") ∉ [(("t1", "u1") : String × String)] :=
  ⟨(c2_collector_dedup [Elem.mk (some "u2") "t2" "x2"] 1 [("t1", "u1")]).1
      ("t2", "u2") (by decide),
   (c2_collector_dedup [Elem.mk (some "https://b/video/1") "tb" "tx"] 1
      [("t1", "u1")]).2 [("tx", "https://b/video/1")] (by rfl)
      ("tx", "https://b/video/1") (by decide)⟩

/-! ## Unfolding lemmas for the `get_urls` loop -/

theorem guLoop_cons_skip (elems : String → List Elem)
    (platform addkw cls : String) (n : Int) (rest : List (String × Int))
    (cid : Int) (urls : List URow)
    (h : n ≤ ((omitOf urls cid).length : Int)) :
    guLoop elems platform addkw ((cls, n) :: rest) cid urls =
      guLoop elems platform addkw rest (cid + 1) urls := by
  rw [guLoop, if_pos h]

theorem guLoop_cons_youtube (elems : String → List Elem)
    (platform addkw cls : String) (n : Int) (rest : List (String × Int))
    (cid : Int) (urls : List URow)
    (hn : ¬ n ≤ ((omitOf urls cid).length : Int))
    (hy : (strLower platform == "youtube") = true) :
    guLoop elems platform addkw ((cls, n) :: rest) cid urls =
      ((guLoop elems platform addkw rest (cid + 1)
          (urls ++ newRowsOf cid cls ((omitOf urls cid).length : Int)
            (get_youtube_urls (elems (cls ++ " " ++ addkw))
              (n - ((omitOf urls cid).length : Int)) (omitOf urls cid)))).1,
       (cls ++ " " ++ addkw) ::
         (guLoop elems platform addkw rest (cid + 1)
           (urls ++ newRowsOf cid cls ((omitOf urls cid).length : Int)
             (get_youtube_urls (elems (cls ++ " " ++ addkw))
               (n - ((omitOf urls cid).length : Int)) (omitOf urls cid)))).2.1,
       (guLoop elems platform addkw rest (cid + 1)
         (urls ++ newRowsOf cid cls ((omitOf urls cid).length : Int)
           (get_youtube_urls (elems (cls ++ " " ++ addkw))
             (n - ((omitOf urls cid).length : Int)) (omitOf urls cid)))).2.2) := by
  simp only [guLoop, if_neg hn, hy, if_true]

theorem guLoop_cons_bilibili_ok (elems : String → List Elem)
    (platform addkw cls : String) (n : Int) (rest : List (String × Int))
    (cid : Int) (urls : List URow) (batch : List (String × String))
    (hn : ¬ n ≤ ((omitOf urls cid).length : Int))
    (hy : (strLower platform == "youtube") = false)
    (hb : (strLower platform == "bilibili") = true)
    (hres : get_bilibili_urls (elems (cls ++ " " ++ addkw))
      (n - ((omitOf urls cid).length : Int)) (omitOf urls cid) = .ok batch) :
    guLoop elems platform addkw ((cls, n) :: rest) cid urls =
      ((guLoop elems platform addkw rest (cid + 1)
          (urls ++ newRowsOf cid cls ((omitOf urls cid).length : Int) batch)).1,
       (cls ++ " " ++ addkw) ::
         (guLoop elems platform addkw rest (cid + 1)
           (urls ++ newRowsOf cid cls ((omitOf urls cid).length : Int) batch)).2.1,
       (guLoop elems platform addkw rest (cid + 1)
         (urls ++ newRowsOf cid cls ((omitOf urls cid).length : Int) batch)).2.2) := by
  simp only [guLoop, if_neg hn, hy, hb, if_true, Bool.false_eq_true, if_false,
    hres]

theorem guLoop_cons_bilibili_err (elems : String → List Elem)
    (platform addkw cls : String) (n : Int) (rest : List (String × Int))
    (cid : Int) (urls : List URow) (e : String)
    (hn : ¬ n ≤ ((omitOf urls cid).length : Int))
    (hy : (strLower platform == "youtube") = false)
    (hb : (strLower platform == "bilibili") = true)
    (hres : get_bilibili_urls (elems (cls ++ " " ++ addkw))
      (n - ((omitOf urls cid).length : Int)) (omitOf urls cid) = .error e) :
    guLoop elems platform addkw ((cls, n) :: rest) cid urls =
      (urls, [cls ++ " " ++ addkw], some e) := by
  simp only [guLoop, if_neg hn, hy, hb, if_true, Bool.false_eq_true, if_false,
    hres]

theorem guLoop_cons_bad (elems : String → List Elem)
    (platform addkw cls : String) (n : Int) (rest : List (String × Int))
    (cid : Int) (urls : List URow)
    (hn : ¬ n ≤ ((omitOf urls cid).length : Int))
    (hy : (strLower platform == "youtube") = false)
    (hb : (strLower platform == "bilibili") = false) :
    guLoop elems platform addkw ((cls, n) :: rest) cid urls =
      (urls, [], some "ValueError: platform not supported") := by
  simp only [guLoop, if_neg hn, hy, hb, Bool.false_eq_true, if_false]

/-! ## C7: density of `video_id` per class -/

theorem denseZero_of_perm {l l' : List Int} (h : l.Perm l')
    (hd : DenseZero l) : DenseZero l' := by
  unfold DenseZero at *
  rw [← h.length_eq]
  exact h.symm.trans hd

theorem denseZero_extend : ∀ (k : Nat) (l : List Int), DenseZero l →
    DenseZero (l ++ rangeFrom (l.length : Int) k) := by
  intro k
  induction k with
  | zero =>
    intro l hd
    simpa [rangeFrom] using hd
  | succ k ih =>
    intro l hd
    have h1 : DenseZero (l ++ [(l.length : Int)]) := by
      unfold DenseZero at hd ⊢
      have hlen : (l ++ [(l.length : Int)]).length = l.length + 1 := by simp
      rw [hlen, List.range_succ, List.map_append]
      exact hd.append_right _
    have h2 := ih (l ++ [(l.length : Int)]) h1
    have h3 : (((l ++ [(l.length : Int)]).length : Nat) : Int) =
        (l.length : Int) + 1 := by
      simp
    rw [h3] at h2
    have h4 : (l ++ [(l.length : Int)]) ++ rangeFrom ((l.length : Int) + 1) k =
        l ++ rangeFrom (l.length : Int) (k + 1) := by
      rw [List.append_assoc, List.singleton_append]
      rfl
    rw [h4] at h2
    exact h2

theorem classVids_append (a b : List URow) (cid : Int) :
    classVids (a ++ b) cid = classVids a cid ++ classVids b cid := by
  simp [classVids, List.filter_append]

theorem classVids_newRowsOf_self (cid : Int) (cls : String) :
    ∀ (batch : List (String × String)) (v : Int),
      classVids (newRowsOf cid cls v batch) cid = rangeFrom v batch.length := by
  intro batch
  induction batch with
  | nil => intro v; rfl
  | cons p rest ih =>
    intro v
    obtain ⟨t, u⟩ := p
    show classVids (URow.mk cid cls v t u :: newRowsOf cid cls (v + 1) rest) cid =
      v :: rangeFrom (v + 1) rest.length
    simp only [classVids, List.filter_cons]
    simp only [show ((URow.mk cid cls v t u).class_id == cid) = true by simp]
    simp only [if_true, List.map_cons]
    exact congrArg (v :: ·) (ih (v + 1))

theorem classVids_newRowsOf_other (cid c : Int) (cls : String) (h : ¬ cid = c) :
    ∀ (batch : List (String × String)) (v : Int),
      classVids (newRowsOf cid cls v batch) c = [] := by
  intro batch
  induction batch with
  | nil => intro v; rfl
  | cons p rest ih =>
    intro v
    obtain ⟨t, u⟩ := p
    show classVids (URow.mk cid cls v t u :: newRowsOf cid cls (v + 1) rest) c = []
    simp only [classVids, List.filter_cons]
    simp only [show ((URow.mk cid cls v t u).class_id == c) = false by
      simpa using h]
    simp only [Bool.false_eq_true, if_false]
    exact ih (v + 1)

theorem omitOf_length (urls : List URow) (cid : Int) :
    (omitOf urls cid).length = (classVids urls cid).length := by
  simp [omitOf, classVids]

theorem guLoop_dense (elems : String → List Elem) (platform addkw : String) :
    ∀ (pairs : List (String × Int)) (cid : Int) (urls : List URow),
      (∀ c, DenseZero (classVids urls c)) →
      ∀ c, DenseZero (classVids
        (guLoop elems platform addkw pairs cid urls).1 c) := by
  intro pairs
  induction pairs with
  | nil =>
    intro cid urls h c
    exact h c
  | cons p rest ih =>
    intro cid urls h c
    obtain ⟨cls, n⟩ := p
    by_cases hskip : n ≤ ((omitOf urls cid).length : Int)
    · rw [guLoop_cons_skip elems platform addkw cls n rest cid urls hskip]
      exact ih (cid + 1) urls h c
    · have hstate : ∀ batch, (∀ c',
          DenseZero (classVids (urls ++
            newRowsOf cid cls ((omitOf urls cid).length : Int) batch) c')) := by
        intro batch c'
        rw [classVids_append]
        by_cases hc : cid = c'
        · subst hc
          rw [classVids_newRowsOf_self, omitOf_length]
          exact denseZero_extend batch.length _ (h cid)
        · rw [classVids_newRowsOf_other cid c' cls hc, List.append_nil]
          exact h c'
      cases hy : strLower platform == "youtube" with
      | true =>
        rw [guLoop_cons_youtube elems platform addkw cls n rest cid urls hskip hy]
        exact ih (cid + 1) _ (hstate _) c
      | false =>
        cases hb : strLower platform == "bilibili" with
        | true =>
          cases hres : get_bilibili_urls (elems (cls ++ " " ++ addkw))
            (n - ((omitOf urls cid).length : Int)) (omitOf urls cid) with
          | ok batch =>
            rw [guLoop_cons_bilibili_ok elems platform addkw cls n rest cid urls
              batch hskip hy hb hres]
            exact ih (cid + 1) _ (hstate _) c
          | error e =>
            rw [guLoop_cons_bilibili_err elems platform addkw cls n rest cid urls
              e hskip hy hb hres]
            exact h c
        | false =>
          rw [guLoop_cons_bad elems platform addkw cls n rest cid urls hskip hy hb]
          exact h c

theorem mem_newRowsOf (cid : Int) (cls : String) :
    ∀ (batch : List (String × String)) (v : Int) (r : URow),
      r ∈ newRowsOf cid cls v batch → r.class_id = cid ∧ v ≤ r.video_id := by
  intro batch
  induction batch with
  | nil =>
    intro v r hr
    cases hr
  | cons p rest ih =>
    intro v r hr
    obtain ⟨t, u⟩ := p
    rcases List.mem_cons.mp hr with h1 | h1
    · subst h1
      exact ⟨rfl, le_refl _⟩
    · obtain ⟨ha, hb⟩ := ih (v + 1) r h1
      exact ⟨ha, le_trans (by omega) hb⟩

theorem omitOf_append (a b : List URow) (cid : Int) :
    omitOf (a ++ b) cid = omitOf a cid ++ omitOf b cid := by
  simp [omitOf, List.filter_append]

theorem omitOf_eq_nil_of_lt (app : List URow) (cid : Int)
    (h : ∀ r ∈ app, r.class_id < cid) : omitOf app cid = [] := by
  unfold omitOf
  rw [List.filter_eq_nil.mpr]
  · rfl
  · intro r hr
    simp only [beq_iff_eq]
    exact ne_of_lt (h r hr)

theorem guLoop_mem (elems : String → List Elem) (platform addkw : String)
    (urls0 : List URow) :
    ∀ (pairs : List (String × Int)) (cid : Int) (app : List URow),
      (∀ r ∈ app, r.class_id < cid ∧
        (r ∈ urls0 ∨ ((classVids urls0 r.class_id).length : Int) ≤ r.video_id)) →
      ∀ r ∈ (guLoop elems platform addkw pairs cid (urls0 ++ app)).1,
        r ∈ urls0 ∨ ((classVids urls0 r.class_id).length : Int) ≤ r.video_id := by
  intro pairs
  induction pairs with
  | nil =>
    intro cid app happ r hr
    rcases List.mem_append.mp hr with h1 | h1
    · exact .inl h1
    · exact (happ r h1).2
  | cons p rest ih =>
    intro cid app happ r hr
    obtain ⟨cls, n⟩ := p
    have hbase : ∀ r ∈ urls0 ++ app,
        r ∈ urls0 ∨ ((classVids urls0 r.class_id).length : Int) ≤ r.video_id := by
      intro s hs
      rcases List.mem_append.mp hs with h1 | h1
      · exact .inl h1
      · exact (happ s h1).2
    have homit : omitOf (urls0 ++ app) cid = omitOf urls0 cid := by
      rw [omitOf_append, omitOf_eq_nil_of_lt app cid (fun s hs => (happ s hs).1),
        List.append_nil]
    by_cases hskip : n ≤ ((omitOf (urls0 ++ app) cid).length : Int)
    · rw [guLoop_cons_skip elems platform addkw cls n rest cid _ hskip] at hr
      exact ih (cid + 1) app
        (fun s hs => ⟨lt_trans (happ s hs).1 (by omega), (happ s hs).2⟩) r hr
    · have happ' : ∀ batch, ∀ s ∈ app ++
          newRowsOf cid cls ((omitOf (urls0 ++ app) cid).length : Int) batch,
          s.class_id < cid + 1 ∧
          (s ∈ urls0 ∨ ((classVids urls0 s.class_id).length : Int) ≤ s.video_id) := by
        intro batch s hs
        rcases List.mem_append.mp hs with h1 | h1
        · exact ⟨lt_trans (happ s h1).1 (by omega), (happ s h1).2⟩
        · obtain ⟨hcid, hvid⟩ := mem_newRowsOf cid cls batch _ s h1
          refine ⟨by omega, .inr ?_⟩
          rw [hcid]
          refine le_trans ?_ hvid
          rw [homit, omitOf_length]
      cases hy : strLower platform == "youtube" with
      | true =>
        rw [guLoop_cons_youtube elems platform addkw cls n rest cid _ hskip hy,
          List.append_assoc] at hr
        exact ih (cid + 1) _ (happ' _) r hr
      | false =>
        cases hb : strLower platform == "bilibili" with
        | true =>
          cases hres : get_bilibili_urls (elems (cls ++ " " ++ addkw))
            (n - ((omitOf (urls0 ++ app) cid).length : Int))
            (omitOf (urls0 ++ app) cid) with
          | ok batch =>
            rw [guLoop_cons_bilibili_ok elems platform addkw cls n rest cid _
              batch hskip hy hb hres, List.append_assoc] at hr
            exact ih (cid + 1) _ (happ' _) r hr
          | error e =>
            rw [guLoop_cons_bilibili_err elems platform addkw cls n rest cid _
              e hskip hy hb hres] at hr
            exact hbase r hr
        | false =>
          rw [guLoop_cons_bad elems platform addkw cls n rest cid _ hskip hy hb]
            at hr
          exact hbase r hr

theorem insertRow_perm (r : URow) : ∀ l : List URow, (insertRow r l).Perm (r :: l) := by
  intro l
  induction l with
  | nil => exact List.Perm.refl _
  | cons s rest ih =>
    unfold insertRow
    by_cases h : ledgerLE r s = true
    · rw [if_pos h]
    · rw [if_neg h]
      exact (ih.cons s).trans (List.Perm.swap r s rest)

theorem sortLedger_perm (l : List URow) : (sortLedger l).Perm l := by
  induction l with
  | nil => exact List.Perm.refl _
  | cons r rest ih =>
    have hstep : sortLedger (r :: rest) = insertRow r (sortLedger rest) := rfl
    rw [hstep]
    exact (insertRow_perm r _).trans (ih.cons r)

theorem classVids_perm {a b : List URow} (h : a.Perm b) (cid : Int) :
    (classVids a cid).Perm (classVids b cid) :=
  (h.filter _).map _

/-- C7: if every class's `video_id` sequence in the initial ledger is dense
and zero-based, then after one `get_urls` run every class's sequence in the
resulting ledger is still dense and zero-based, and every row either was
already present or received a `video_id` at least the class's previous row
count (the ids continue upward from the previous maximum). -/
theorem c7_video_id_dense (elems : String → List Elem)
    (fileLedger : Option (List URow)) (classes : List String)
    (numVideos : NumVideos) (addkw platform : String)
    (hd : ∀ c, DenseZero (classVids (fileLedger.getD []) c)) :
    (∀ c, DenseZero (classVids
      (get_urls elems fileLedger classes numVideos addkw platform).ledger c)) ∧
    (∀ r ∈ (get_urls elems fileLedger classes numVideos addkw platform).ledger,
      r ∈ fileLedger.getD [] ∨
      ((classVids (fileLedger.getD []) r.class_id).length : Int) ≤ r.video_id) := by
  cases hnv : resolveNv numVideos classes.length with
  | error e =>
    constructor
    · intro c
      simp only [get_urls, hnv]
      exact hd c
    · intro r hr
      simp only [get_urls, hnv] at hr
      exact .inl hr
  | ok nv =>
    have hdense := guLoop_dense elems platform addkw (classes.zip nv) 0
      (fileLedger.getD []) hd
    have hmem := guLoop_mem elems platform addkw (fileLedger.getD [])
      (classes.zip nv) 0 [] (by intro r hr; cases hr)
    rw [List.append_nil] at hmem
    rcases hloop : guLoop elems platform addkw (classes.zip nv) 0
      (fileLedger.getD []) with ⟨urls, qs, err⟩
    rw [hloop] at hdense hmem
    cases err with
    | some e =>
      constructor
      · intro c
        simp only [get_urls, hnv, hloop]
        exact hdense c
      · intro r hr
        simp only [get_urls, hnv, hloop] at hr
        exact hmem r hr
    | none =>
      constructor
      · intro c
        simp only [get_urls, hnv, hloop]
        exact denseZero_of_perm (classVids_perm (sortLedger_perm urls).symm c)
          (hdense c)
      · intro r hr
        simp only [get_urls, hnv, hloop] at hr
        exact hmem r ((sortLedger_perm urls).mem_iff.mp hr)

/-- Witness for C7 at a concrete backend and empty initial ledger. -/
theorem c7_video_id_dense_witness :
    DenseZero (classVids
      (get_urls elemsW none ["cat"] (.int 1) "" "youtube").ledger 0) ∧
    (URow.mk 0 "cat" 0 "t1" "u1" ∈ ([] : List URow) ∨
      ((classVids ([] : List URow)
        (URow.mk 0 "cat" 0 "t1" "u1").class_id).length : Int) ≤
        (URow.mk 0 "cat" 0 "t1" "u1").video_id) :=
  ⟨(c7_video_id_dense elemsW none ["cat"] (.int 1) "" "youtube"
      (fun _ => (by decide : DenseZero ([] : List Int)))).1 0,
   (c7_video_id_dense elemsW none ["cat"] (.int 1) "" "youtube"
      (fun _ => (by decide : DenseZero ([] : List Int)))).2
      (URow.mk 0 "cat" 0 "t1" "u1") (by decide)⟩

/-! ## Unfolding and bookkeeping lemmas for the Fetcher's row pass -/

theorem classPass_nil (dl : Nat → Bool) (cap : Option Int) (cid : Int)
    (ext : String) (i count : Nat) :
    classPass dl cap cid ext [] i count = ⟨[], count, [], []⟩ := rfl

theorem classPass_cons_break (dl : Nat → Bool) (cap : Option Int) (cid : Int)
    (ext : String) (r : VRow) (rest : List VRow) (i count : Nat)
    (h1 : (r.class_id == cid) = true) (h2 : capReached cap count = true) :
    classPass dl cap cid ext (r :: rest) i count = ⟨r :: rest, count, [], []⟩ := by
  simp only [classPass, h1, h2, if_true]

theorem classPass_cons_skip (dl : Nat → Bool) (cap : Option Int) (cid : Int)
    (ext : String) (r : VRow) (rest : List VRow) (i count : Nat)
    (h1 : (r.class_id == cid) = true) (h2 : capReached cap count = false)
    (h3 : r.download = true) :
    classPass dl cap cid ext (r :: rest) i count =
      ⟨r :: (classPass dl cap cid ext rest (i + 1) count).rows,
       (classPass dl cap cid ext rest (i + 1) count).count,
       (classPass dl cap cid ext rest (i + 1) count).newFiles,
       (classPass dl cap cid ext rest (i + 1) count).attempts⟩ := by
  simp only [classPass, h1, h2, h3, if_true, Bool.false_eq_true, if_false]

theorem classPass_cons_dl (dl : Nat → Bool) (cap : Option Int) (cid : Int)
    (ext : String) (r : VRow) (rest : List VRow) (i count : Nat)
    (h1 : (r.class_id == cid) = true) (h2 : capReached cap count = false)
    (h3 : r.download = false) :
    classPass dl cap cid ext (r :: rest) i count =
      ⟨{ r with download := dl i } ::
         (classPass dl cap cid ext rest (i + 1) (count + cond (dl i) 1 0)).rows,
       (classPass dl cap cid ext rest (i + 1) (count + cond (dl i) 1 0)).count,
       (cond (dl i) [r.video_name ++ ext] []) ++
         (classPass dl cap cid ext rest (i + 1) (count + cond (dl i) 1 0)).newFiles,
       i :: (classPass dl cap cid ext rest (i + 1) (count + cond (dl i) 1 0)).attempts⟩ := by
  simp only [classPass, h1, h2, h3, if_true, Bool.false_eq_true, if_false]

theorem classPass_cons_other (dl : Nat → Bool) (cap : Option Int) (cid : Int)
    (ext : String) (r : VRow) (rest : List VRow) (i count : Nat)
    (h1 : (r.class_id == cid) = false) :
    classPass dl cap cid ext (r :: rest) i count =
      ⟨r :: (classPass dl cap cid ext rest (i + 1) count).rows,
       (classPass dl cap cid ext rest (i + 1) count).count,
       (classPass dl cap cid ext rest (i + 1) count).newFiles,
       (classPass dl cap cid ext rest (i + 1) count).attempts⟩ := by
  simp only [classPass, h1, Bool.false_eq_true, if_false]

theorem countDownloaded_cons (r : VRow) (l : List VRow) (cid : Int) :
    countDownloaded (r :: l) cid =
      (if (r.class_id == cid && r.download) = true then 1 else 0) +
        countDownloaded l cid := by
  unfold countDownloaded
  rw [List.filter_cons]
  by_cases h : (r.class_id == cid && r.download) = true
  · rw [if_pos h, if_pos h, List.length_cons]
    omega
  · rw [if_neg h, if_neg h]
    omega

theorem classPass_length (dl : Nat → Bool) (cap : Option Int) (cid : Int)
    (ext : String) :
    ∀ (v : List VRow) (i count : Nat),
      (classPass dl cap cid ext v i count).rows.length = v.length := by
  intro v
  induction v with
  | nil => intro i count; rfl
  | cons r rest ih =>
    intro i count
    cases h1 : r.class_id == cid with
    | false =>
      rw [classPass_cons_other dl cap cid ext r rest i count h1]
      simp [ih (i + 1) count]
    | true =>
      cases h2 : capReached cap count with
      | true =>
        rw [classPass_cons_break dl cap cid ext r rest i count h1 h2]
      | false =>
        cases h3 : r.download with
        | true =>
          rw [classPass_cons_skip dl cap cid ext r rest i count h1 h2 h3]
          simp [ih (i + 1) count]
        | false =>
          rw [classPass_cons_dl dl cap cid ext r rest i count h1 h2 h3]
          simp [ih (i + 1) (count + cond (dl i) 1 0)]

theorem capReached_mono (cap : Option Int) (c c' : Nat) (h : c ≤ c')
    (hc : capReached cap c = true) : capReached cap c' = true := by
  cases cap with
  | none => exact absurd hc (by simp [capReached])
  | some k =>
    simp only [capReached, decide_eq_true_eq] at hc ⊢
    omega

theorem classPass_count_mono (dl : Nat → Bool) (cap : Option Int) (cid : Int)
    (ext : String) :
    ∀ (v : List VRow) (i count : Nat),
      count ≤ (classPass dl cap cid ext v i count).count := by
  intro v
  induction v with
  | nil => intro i count; exact le_refl _
  | cons r rest ih =>
    intro i count
    cases h1 : r.class_id == cid with
    | false =>
      rw [classPass_cons_other dl cap cid ext r rest i count h1]
      exact ih (i + 1) count
    | true =>
      cases h2 : capReached cap count with
      | true =>
        rw [classPass_cons_break dl cap cid ext r rest i count h1 h2]
      | false =>
        cases h3 : r.download with
        | true =>
          rw [classPass_cons_skip dl cap cid ext r rest i count h1 h2 h3]
          exact ih (i + 1) count
        | false =>
          rw [classPass_cons_dl dl cap cid ext r rest i count h1 h2 h3]
          exact le_trans (by omega) (ih (i + 1) (count + cond (dl i) 1 0))

theorem classPass_count_eq (dl : Nat → Bool) (cap : Option Int) (cid : Int)
    (ext : String) :
    ∀ (v : List VRow) (i count : Nat),
      (classPass dl cap cid ext v i count).count + countDownloaded v cid =
        count + countDownloaded (classPass dl cap cid ext v i count).rows cid := by
  intro v
  induction v with
  | nil => intro i count; rfl
  | cons r rest ih =>
    intro i count
    cases h1 : r.class_id == cid with
    | false =>
      rw [classPass_cons_other dl cap cid ext r rest i count h1,
        countDownloaded_cons, countDownloaded_cons]
      dsimp only
      have := ih (i + 1) count
      omega
    | true =>
      cases h2 : capReached cap count with
      | true =>
        rw [classPass_cons_break dl cap cid ext r rest i count h1 h2]
      | false =>
        cases h3 : r.download with
        | true =>
          rw [classPass_cons_skip dl cap cid ext r rest i count h1 h2 h3,
            countDownloaded_cons, countDownloaded_cons]
          dsimp only
          have := ih (i + 1) count
          omega
        | false =>
          rw [classPass_cons_dl dl cap cid ext r rest i count h1 h2 h3,
            countDownloaded_cons, countDownloaded_cons]
          dsimp only
          have := ih (i + 1) (count + cond (dl i) 1 0)
          cases hd : dl i with
          | true =>
            simp only [hd, cond_true] at this ⊢
            simp only [h1, h3, Bool.and_false, Bool.and_true]
            simp only [Bool.false_eq_true, if_false, if_true]
            omega
          | false =>
            simp only [hd, cond_false] at this ⊢
            simp only [h1, h3, Bool.and_false]
            simp only [Bool.false_eq_true, if_false]
            omega

theorem classPass_count_le (dl : Nat → Bool) (k : Int) (cid : Int)
    (ext : String) :
    ∀ (v : List VRow) (i count : Nat),
      ((classPass dl (some k) cid ext v i count).count : Int) ≤
        max k (count : Int) := by
  intro v
  induction v with
  | nil => intro i count; exact le_max_right _ _
  | cons r rest ih =>
    intro i count
    cases h1 : r.class_id == cid with
    | false =>
      rw [classPass_cons_other dl (some k) cid ext r rest i count h1]
      exact ih (i + 1) count
    | true =>
      cases h2 : capReached (some k) count with
      | true =>
        rw [classPass_cons_break dl (some k) cid ext r rest i count h1 h2]
        exact le_max_right _ _
      | false =>
        cases h3 : r.download with
        | true =>
          rw [classPass_cons_skip dl (some k) cid ext r rest i count h1 h2 h3]
          exact ih (i + 1) count
        | false =>
          rw [classPass_cons_dl dl (some k) cid ext r rest i count h1 h2 h3]
          have hlt : (count : Int) < k := by
            simp only [capReached, decide_eq_false_iff_not] at h2
            omega
          have hle : ((count + cond (dl i) 1 0 : Nat) : Int) ≤ k := by
            cases dl i <;> simp only [cond_true, cond_false] <;> push_cast <;>
              omega
          calc ((classPass dl (some k) cid ext rest (i + 1)
              (count + cond (dl i) 1 0)).count : Int)
              ≤ max k ((count + cond (dl i) 1 0 : Nat) : Int) :=
                ih (i + 1) (count + cond (dl i) 1 0)
            _ = k := max_eq_left hle
            _ ≤ max k (count : Int) := le_max_left _ _

theorem classPass_of_capReached (dl : Nat → Bool) (cap : Option Int)
    (cid : Int) (ext : String) :
    ∀ (v : List VRow) (i count : Nat), capReached cap count = true →
      classPass dl cap cid ext v i count = ⟨v, count, [], []⟩ := by
  intro v
  induction v with
  | nil => intro i count _; rfl
  | cons r rest ih =>
    intro i count h
    cases h1 : r.class_id == cid with
    | true => exact classPass_cons_break dl cap cid ext r rest i count h1 h
    | false =>
      rw [classPass_cons_other dl cap cid ext r rest i count h1,
        ih (i + 1) count h]

theorem classPass_countDownloaded_other (dl : Nat → Bool) (cap : Option Int)
    (cid : Int) (ext : String) (c : Int) (hc : ¬ c = cid) :
    ∀ (v : List VRow) (i count : Nat),
      countDownloaded (classPass dl cap cid ext v i count).rows c =
        countDownloaded v c := by
  intro v
  induction v with
  | nil => intro i count; rfl
  | cons r rest ih =>
    intro i count
    cases h1 : r.class_id == cid with
    | false =>
      rw [classPass_cons_other dl cap cid ext r rest i count h1,
        countDownloaded_cons, countDownloaded_cons, ih (i + 1) count]
    | true =>
      cases h2 : capReached cap count with
      | true =>
        rw [classPass_cons_break dl cap cid ext r rest i count h1 h2]
      | false =>
        cases h3 : r.download with
        | true =>
          rw [classPass_cons_skip dl cap cid ext r rest i count h1 h2 h3,
            countDownloaded_cons, countDownloaded_cons, ih (i + 1) count]
        | false =>
          rw [classPass_cons_dl dl cap cid ext r rest i count h1 h2 h3,
            countDownloaded_cons, countDownloaded_cons,
            ih (i + 1) (count + cond (dl i) 1 0)]
          have hcls : (r.class_id == c) = false := by
            have h4 : r.class_id = cid := by simpa using h1
            rw [h4]
            exact beq_eq_false_iff_ne.mpr fun h => hc h.symm
          simp [hcls]

theorem vrow_update_of_eq (r : VRow) (b : Bool) (h : r.download = b) :
    ({ r with download := b }) = r := by
  subst h
  exact vrow_update_eta r

theorem classPass_getElem? (dl : Nat → Bool) (cap : Option Int) (cid : Int)
    (ext : String) :
    ∀ (v : List VRow) (i count j : Nat) (r : VRow), v[j]? = some r →
      ∃ b, (classPass dl cap cid ext v i count).rows[j]? =
          some { r with download := b } ∧
        (¬ r.class_id = cid → b = r.download) ∧
        (r.download = true → b = true) := by
  intro v
  induction v with
  | nil =>
    intro i count j r hr
    rw [List.getElem?_nil] at hr
    cases hr
  | cons r0 rest ih =>
    intro i count j r hr
    cases j with
    | zero =>
      rw [List.getElem?_cons_zero] at hr
      have hr0 : r0 = r := Option.some.inj hr
      subst hr0
      cases h1 : r0.class_id == cid with
      | false =>
        refine ⟨r0.download, ?_, fun _ => rfl, fun h => h⟩
        rw [classPass_cons_other dl cap cid ext r0 rest i count h1]
        dsimp only
        rw [List.getElem?_cons_zero, vrow_update_eta]
      | true =>
        cases h2 : capReached cap count with
        | true =>
          refine ⟨r0.download, ?_, fun _ => rfl, fun h => h⟩
          rw [classPass_cons_break dl cap cid ext r0 rest i count h1 h2]
          dsimp only
          rw [List.getElem?_cons_zero, vrow_update_eta]
        | false =>
          cases h3 : r0.download with
          | true =>
            refine ⟨true, ?_, fun _ => rfl, fun _ => rfl⟩
            rw [classPass_cons_skip dl cap cid ext r0 rest i count h1 h2 h3]
            dsimp only
            rw [List.getElem?_cons_zero, vrow_update_of_eq r0 true h3]
          | false =>
            refine ⟨dl i, ?_, fun hnc => absurd (by simpa using h1) hnc,
              fun hdl => absurd hdl (by simp [h3])⟩
            rw [classPass_cons_dl dl cap cid ext r0 rest i count h1 h2 h3]
            dsimp only
            rw [List.getElem?_cons_zero]
    | succ j =>
      rw [List.getElem?_cons_succ] at hr
      cases h1 : r0.class_id == cid with
      | false =>
        obtain ⟨b, hb, hb1, hb2⟩ := ih (i + 1) count j r hr
        refine ⟨b, ?_, hb1, hb2⟩
        rw [classPass_cons_other dl cap cid ext r0 rest i count h1]
        dsimp only
        rw [List.getElem?_cons_succ]
        exact hb
      | true =>
        cases h2 : capReached cap count with
        | true =>
          refine ⟨r.download, ?_, fun _ => rfl, fun h => h⟩
          rw [classPass_cons_break dl cap cid ext r0 rest i count h1 h2]
          dsimp only
          rw [List.getElem?_cons_succ, hr, vrow_update_eta]
        | false =>
          cases h3 : r0.download with
          | true =>
            obtain ⟨b, hb, hb1, hb2⟩ := ih (i + 1) count j r hr
            refine ⟨b, ?_, hb1, hb2⟩
            rw [classPass_cons_skip dl cap cid ext r0 rest i count h1 h2 h3]
            dsimp only
            rw [List.getElem?_cons_succ]
            exact hb
          | false =>
            obtain ⟨b, hb, hb1, hb2⟩ := ih (i + 1) (count + cond (dl i) 1 0) j r hr
            refine ⟨b, ?_, hb1, hb2⟩
            rw [classPass_cons_dl dl cap cid ext r0 rest i count h1 h2 h3]
            dsimp only
            rw [List.getElem?_cons_succ]
            exact hb

theorem classPass_attempts_ge (dl : Nat → Bool) (cap : Option Int) (cid : Int)
    (ext : String) :
    ∀ (v : List VRow) (i count a : Nat),
      a ∈ (classPass dl cap cid ext v i count).attempts → i ≤ a := by
  intro v
  induction v with
  | nil =>
    intro i count a ha
    cases ha
  | cons r0 rest ih =>
    intro i count a ha
    cases h1 : r0.class_id == cid with
    | false =>
      rw [classPass_cons_other dl cap cid ext r0 rest i count h1] at ha
      dsimp only at ha
      exact le_trans (by omega) (ih (i + 1) count a ha)
    | true =>
      cases h2 : capReached cap count with
      | true =>
        rw [classPass_cons_break dl cap cid ext r0 rest i count h1 h2] at ha
        cases ha
      | false =>
        cases h3 : r0.download with
        | true =>
          rw [classPass_cons_skip dl cap cid ext r0 rest i count h1 h2 h3] at ha
          dsimp only at ha
          exact le_trans (by omega) (ih (i + 1) count a ha)
        | false =>
          rw [classPass_cons_dl dl cap cid ext r0 rest i count h1 h2 h3] at ha
          dsimp only at ha
          rcases List.mem_cons.mp ha with h4 | h4
          · omega
          · exact le_trans (by omega)
              (ih (i + 1) (count + cond (dl i) 1 0) a h4)

theorem classPass_skip_frame (dl : Nat → Bool) (cap : Option Int) (cid : Int)
    (ext : String) :
    ∀ (v : List VRow) (i count j : Nat) (r : VRow), v[j]? = some r →
      r.download = true →
      (classPass dl cap cid ext v i count).rows[j]? = some r ∧
        ¬ (i + j) ∈ (classPass dl cap cid ext v i count).attempts := by
  intro v
  induction v with
  | nil =>
    intro i count j r hr _
    rw [List.getElem?_nil] at hr
    cases hr
  | cons r0 rest ih =>
    intro i count j r hr hd
    cases j with
    | zero =>
      rw [List.getElem?_cons_zero] at hr
      have hr0 : r0 = r := Option.some.inj hr
      subst hr0
      cases h1 : r0.class_id == cid with
      | false =>
        rw [classPass_cons_other dl cap cid ext r0 rest i count h1]
        dsimp only
        refine ⟨List.getElem?_cons_zero, fun hmem => ?_⟩
        have := classPass_attempts_ge dl cap cid ext rest (i + 1) count _ hmem
        omega
      | true =>
        cases h2 : capReached cap count with
        | true =>
          rw [classPass_cons_break dl cap cid ext r0 rest i count h1 h2]
          exact ⟨List.getElem?_cons_zero, fun hmem => by cases hmem⟩
        | false =>
          cases h3 : r0.download with
          | true =>
            rw [classPass_cons_skip dl cap cid ext r0 rest i count h1 h2 h3]
            dsimp only
            refine ⟨List.getElem?_cons_zero, fun hmem => ?_⟩
            have := classPass_attempts_ge dl cap cid ext rest (i + 1) count _ hmem
            omega
          | false =>
            rw [h3] at hd
            cases hd
    | succ j =>
      rw [List.getElem?_cons_succ] at hr
      cases h1 : r0.class_id == cid with
      | false =>
        rw [classPass_cons_other dl cap cid ext r0 rest i count h1]
        dsimp only
        obtain ⟨ha, hb⟩ := ih (i + 1) count j r hr hd
        refine ⟨by rw [List.getElem?_cons_succ]; exact ha, fun hmem => ?_⟩
        have : (i + 1) + j = i + (j + 1) := by omega
        rw [this] at hb
        exact hb hmem
      | true =>
        cases h2 : capReached cap count with
        | true =>
          rw [classPass_cons_break dl cap cid ext r0 rest i count h1 h2]
          exact ⟨by rw [List.getElem?_cons_succ]; exact hr,
            fun hmem => by cases hmem⟩
        | false =>
          cases h3 : r0.download with
          | true =>
            rw [classPass_cons_skip dl cap cid ext r0 rest i count h1 h2 h3]
            dsimp only
            obtain ⟨ha, hb⟩ := ih (i + 1) count j r hr hd
            refine ⟨by rw [List.getElem?_cons_succ]; exact ha, fun hmem => ?_⟩
            have : (i + 1) + j = i + (j + 1) := by omega
            rw [this] at hb
            exact hb hmem
          | false =>
            rw [classPass_cons_dl dl cap cid ext r0 rest i count h1 h2 h3]
            dsimp only
            obtain ⟨ha, hb⟩ := ih (i + 1) (count + cond (dl i) 1 0) j r hr hd
            refine ⟨by rw [List.getElem?_cons_succ]; exact ha, fun hmem => ?_⟩
            rcases List.mem_cons.mp hmem with h4 | h4
            · omega
            · have : (i + 1) + j = i + (j + 1) := by omega
              rw [this] at hb
              exact hb h4

theorem classPass_idem (dl : Nat → Bool) (cap : Option Int) (cid : Int)
    (ext : String) :
    ∀ (v : List VRow) (i count : Nat),
      capReached cap ((classPass dl cap cid ext v i count).count) = false →
      (classPass dl cap cid ext (classPass dl cap cid ext v i count).rows i
          ((classPass dl cap cid ext v i count).count)).rows =
        (classPass dl cap cid ext v i count).rows ∧
      (classPass dl cap cid ext (classPass dl cap cid ext v i count).rows i
          ((classPass dl cap cid ext v i count).count)).count =
        (classPass dl cap cid ext v i count).count := by
  intro v
  induction v with
  | nil =>
    intro i count _
    exact ⟨rfl, rfl⟩
  | cons r0 rest ih =>
    intro i count h
    cases h1 : r0.class_id == cid with
    | false =>
      rw [classPass_cons_other dl cap cid ext r0 rest i count h1] at h ⊢
      dsimp only at h ⊢
      rw [classPass_cons_other dl cap cid ext r0 _ i _ h1]
      dsimp only
      obtain ⟨ha, hb⟩ := ih (i + 1) count h
      exact ⟨by rw [ha], hb⟩
    | true =>
      cases h2 : capReached cap count with
      | true =>
        rw [classPass_cons_break dl cap cid ext r0 rest i count h1 h2] at h
        dsimp only at h
        rw [h2] at h
        cases h
      | false =>
        cases h3 : r0.download with
        | true =>
          rw [classPass_cons_skip dl cap cid ext r0 rest i count h1 h2 h3]
            at h ⊢
          dsimp only at h ⊢
          rw [classPass_cons_skip dl cap cid ext r0 _ i _ h1 h h3]
          dsimp only
          obtain ⟨ha, hb⟩ := ih (i + 1) count h
          exact ⟨by rw [ha], hb⟩
        | false =>
          rw [classPass_cons_dl dl cap cid ext r0 rest i count h1 h2 h3]
            at h ⊢
          dsimp only at h ⊢
          cases hd : dl i with
          | true =>
            simp only [hd, cond_true] at h ⊢
            have h1' : (({ r0 with download := true } : VRow).class_id == cid) =
                true := h1
            have h3' : ({ r0 with download := true } : VRow).download = true := rfl
            rw [classPass_cons_skip dl cap cid ext _ _ i _ h1' h h3']
            dsimp only
            obtain ⟨ha, hb⟩ := ih (i + 1) (count + 1) h
            exact ⟨by rw [ha], hb⟩
          | false =>
            simp only [hd, cond_false, Nat.add_zero] at h ⊢
            have h1' : (({ r0 with download := false } : VRow).class_id == cid) =
                true := h1
            have h3' : ({ r0 with download := false } : VRow).download = false := rfl
            rw [classPass_cons_dl dl cap cid ext _ _ i _ h1' h h3']
            dsimp only
            simp only [hd, cond_false, Nat.add_zero, vrow_update_update]
            obtain ⟨ha, hb⟩ := ih (i + 1) count h
            exact ⟨by rw [ha], hb⟩

theorem relCid_refl (cid : Int) (v : List VRow) : RelCid cid v v := by
  refine ⟨rfl, fun j r s hr hs => ?_⟩
  have heq := Option.some.inj (hr.symm.trans hs)
  subst heq
  exact ⟨rfl, fun _ => rfl⟩

theorem relCid_cons {cid : Int} {r s : VRow} {v w : List VRow}
    (h1 : r.class_id = s.class_id) (h2 : r.class_id = cid → r = s)
    (h : RelCid cid v w) : RelCid cid (r :: v) (s :: w) := by
  refine ⟨by simp [h.1], fun j a b ha hb => ?_⟩
  cases j with
  | zero =>
    rw [List.getElem?_cons_zero] at ha hb
    obtain rfl := Option.some.inj ha
    obtain rfl := Option.some.inj hb
    exact ⟨h1, h2⟩
  | succ j =>
    rw [List.getElem?_cons_succ] at ha hb
    exact h.2 j a b ha hb

theorem relCid_cons_elim {cid : Int} {r s : VRow} {v w : List VRow}
    (h : RelCid cid (r :: v) (s :: w)) :
    (r.class_id = s.class_id ∧ (r.class_id = cid → r = s)) ∧ RelCid cid v w := by
  obtain ⟨hlen, hpt⟩ := h
  refine ⟨hpt 0 r s List.getElem?_cons_zero List.getElem?_cons_zero,
    by simpa using hlen, fun j a b ha hb => ?_⟩
  exact hpt (j + 1) a b (by rw [List.getElem?_cons_succ]; exact ha)
    (by rw [List.getElem?_cons_succ]; exact hb)

theorem classPass_rel (dl : Nat → Bool) (cap : Option Int) (cid : Int)
    (ext : String) :
    ∀ (v w : List VRow), RelCid cid v w → ∀ (i count : Nat),
      (classPass dl cap cid ext v i count).count =
        (classPass dl cap cid ext w i count).count ∧
      RelCid cid (classPass dl cap cid ext v i count).rows
        (classPass dl cap cid ext w i count).rows := by
  intro v
  induction v with
  | nil =>
    intro w hrel i count
    have hw : w = [] := List.length_eq_zero.mp hrel.1.symm
    subst hw
    exact ⟨rfl, relCid_refl cid _⟩
  | cons r rv ih =>
    intro w hrel i count
    cases w with
    | nil => exact absurd hrel.1 (by simp)
    | cons s ws =>
      obtain ⟨⟨hcls, heq⟩, htail⟩ := relCid_cons_elim hrel
      cases h1 : r.class_id == cid with
      | true =>
        have hrs : r = s := heq (by simpa using h1)
        subst hrs
        cases h2 : capReached cap count with
        | true =>
          rw [classPass_cons_break dl cap cid ext r rv i count h1 h2,
            classPass_cons_break dl cap cid ext r ws i count h1 h2]
          exact ⟨rfl, hrel⟩
        | false =>
          cases h3 : r.download with
          | true =>
            rw [classPass_cons_skip dl cap cid ext r rv i count h1 h2 h3,
              classPass_cons_skip dl cap cid ext r ws i count h1 h2 h3]
            dsimp only
            obtain ⟨hc, hr⟩ := ih ws htail (i + 1) count
            exact ⟨hc, relCid_cons rfl (fun _ => rfl) hr⟩
          | false =>
            rw [classPass_cons_dl dl cap cid ext r rv i count h1 h2 h3,
              classPass_cons_dl dl cap cid ext r ws i count h1 h2 h3]
            dsimp only
            obtain ⟨hc, hr⟩ := ih ws htail (i + 1) (count + cond (dl i) 1 0)
            exact ⟨hc, relCid_cons rfl (fun _ => rfl) hr⟩
      | false =>
        have hcls2 : (s.class_id == cid) = false := by rw [← hcls]; exact h1
        rw [classPass_cons_other dl cap cid ext r rv i count h1,
          classPass_cons_other dl cap cid ext s ws i count hcls2]
        dsimp only
        obtain ⟨hc, hr⟩ := ih ws htail (i + 1) count
        refine ⟨hc, relCid_cons hcls
          (fun hcid => absurd hcid (by simpa using h1)) hr⟩

theorem countDownloaded_rel (cid : Int) : ∀ (v w : List VRow),
    RelCid cid v w → countDownloaded v cid = countDownloaded w cid := by
  intro v
  induction v with
  | nil =>
    intro w h
    have hw : w = [] := List.length_eq_zero.mp h.1.symm
    subst hw
    rfl
  | cons r rv ih =>
    intro w h
    cases w with
    | nil => exact absurd h.1 (by simp)
    | cons s ws =>
      obtain ⟨⟨hcls, heq⟩, htail⟩ := relCid_cons_elim h
      rw [countDownloaded_cons, countDownloaded_cons, ih ws htail]
      congr 1
      by_cases hc : r.class_id = cid
      · rw [heq hc]
      · have ha : (r.class_id == cid) = false := beq_eq_false_iff_ne.mpr hc
        have hb : (s.class_id == cid) = false := by rw [← hcls]; exact ha
        rw [ha, hb]
        simp

theorem fixedCid_processClass (dl : Nat → Bool) (cap : Option Int)
    (ext : String) (cid : Int) (v : List VRow) :
    FixedCid dl cap ext cid (processClass dl cap ext cid v).rows := by
  unfold FixedCid processClass
  have hA := classPass_count_eq dl cap cid ext v 0 (countDownloaded v cid)
  have hcnt : countDownloaded
      (classPass dl cap cid ext v 0 (countDownloaded v cid)).rows cid =
      (classPass dl cap cid ext v 0 (countDownloaded v cid)).count := by omega
  rw [hcnt]
  cases hcap : capReached cap
      ((classPass dl cap cid ext v 0 (countDownloaded v cid)).count) with
  | true => rw [classPass_of_capReached dl cap cid ext _ 0 _ hcap]
  | false => exact (classPass_idem dl cap cid ext v 0 (countDownloaded v cid)
      hcap).1

theorem fixedCid_preserved (dl : Nat → Bool) (cap : Option Int) (ext : String)
    (cid cid' : Int) (u : List VRow) (hfix : FixedCid dl cap ext cid u) :
    FixedCid dl cap ext cid (processClass dl cap ext cid' u).rows := by
  by_cases hcc : cid' = cid
  · subst hcc
    exact fixedCid_processClass dl cap ext cid' u
  · have hrel : RelCid cid u (processClass dl cap ext cid' u).rows := by
      refine ⟨(classPass_length dl cap cid' ext u 0 _).symm,
        fun j r s hr hs => ?_⟩
      obtain ⟨b, hb, hb1, _⟩ := classPass_getElem? dl cap cid' ext u 0
        (countDownloaded u cid') j r hr
      have hsb : s = { r with download := b } := Option.some.inj (hs.symm.trans hb)
      subst hsb
      refine ⟨rfl, fun hcid => ?_⟩
      have hbd : b = r.download := hb1 fun hh => hcc (by rw [← hh, hcid])
      exact (vrow_update_of_eq r b hbd.symm).symm
    have hcount : countDownloaded (processClass dl cap ext cid' u).rows cid =
        countDownloaded u cid :=
      classPass_countDownloaded_other dl cap cid' ext cid
        (fun h => hcc h.symm) u 0 _
    have hG := classPass_rel dl cap cid ext u
      (processClass dl cap ext cid' u).rows hrel 0 (countDownloaded u cid)
    show (processClass dl cap ext cid (processClass dl cap ext cid' u).rows).rows
      = (processClass dl cap ext cid' u).rows
    have hpc : processClass dl cap ext cid (processClass dl cap ext cid' u).rows
        = classPass dl cap cid ext (processClass dl cap ext cid' u).rows 0
          (countDownloaded u cid) := by
      have hcount2 := hcount
      unfold processClass at hcount2 ⊢
      rw [hcount2]
    rw [hpc]
    apply List.ext_getElem?
    intro j
    have hlen1 : (classPass dl cap cid ext (processClass dl cap ext cid' u).rows
        0 (countDownloaded u cid)).rows.length =
        (processClass dl cap ext cid' u).rows.length :=
      classPass_length dl cap cid ext _ 0 _
    have hlen2 : (processClass dl cap ext cid' u).rows.length = u.length :=
      classPass_length dl cap cid' ext u 0 _
    cases hu : u[j]? with
    | none =>
      have hj : u.length ≤ j := by
        by_contra hc
        rw [show u[j]? = some (u.get ⟨j, by omega⟩) from
          List.getElem?_eq_getElem (by omega)] at hu
        cases hu
      rw [List.getElem?_eq_none (by omega), List.getElem?_eq_none (by omega)]
    | some r =>
      have hj : j < u.length := by
        by_contra hc
        rw [List.getElem?_eq_none (by omega)] at hu
        cases hu
      cases hs : (processClass dl cap ext cid' u).rows[j]? with
      | none =>
        rw [List.getElem?_eq_none_iff] at hs
        omega
      | some s =>
        have hclseq : r.class_id = s.class_id ∧ (r.class_id = cid → r = s) :=
          hrel.2 j r s hu hs
        by_cases hrc : r.class_id = cid
        · obtain rfl := hclseq.2 hrc
          have hufix : (classPass dl cap cid ext u 0
              (countDownloaded u cid)).rows[j]? = some r := by
            have : (processClass dl cap ext cid u).rows = u := hfix
            unfold processClass at this
            rw [this, hu]
          obtain ⟨t, hts⟩ : ∃ t, (classPass dl cap cid ext
              (processClass dl cap ext cid' u).rows 0
              (countDownloaded u cid)).rows[j]? = some t := by
            cases htt : (classPass dl cap cid ext
                (processClass dl cap ext cid' u).rows 0
                (countDownloaded u cid)).rows[j]? with
            | none =>
              rw [List.getElem?_eq_none_iff] at htt
              omega
            | some t => exact ⟨t, rfl⟩
          have := (hG.2.2 j r t hufix hts).2 hrc
          rw [hts]
          exact congrArg some this.symm
        · obtain ⟨b, hb, hb1, _⟩ := classPass_getElem? dl cap cid ext
            (processClass dl cap ext cid' u).rows 0 (countDownloaded u cid)
            j s hs
          have hsc : ¬ s.class_id = cid := by
            rw [← hclseq.1]
            exact hrc
          have hbd : b = s.download := hb1 hsc
          rw [hb, vrow_update_of_eq s b hbd.symm]

theorem passesOnly_fixed_preserved (dl : Nat → Bool) (cap : Option Int)
    (ext : String) (cid : Int) :
    ∀ (cs : List (Int × String)) (u : List VRow), FixedCid dl cap ext cid u →
      FixedCid dl cap ext cid (passesOnly dl cap ext cs u) := by
  intro cs
  induction cs with
  | nil => intro u h; exact h
  | cons p rest ih =>
    intro u h
    obtain ⟨c0, cls⟩ := p
    exact ih _ (fixedCid_preserved dl cap ext cid c0 u h)

theorem passesOnly_fixed_mem (dl : Nat → Bool) (cap : Option Int)
    (ext : String) :
    ∀ (cs : List (Int × String)) (v : List VRow) (cid : Int),
      cid ∈ cs.map Prod.fst →
      FixedCid dl cap ext cid (passesOnly dl cap ext cs v) := by
  intro cs
  induction cs with
  | nil =>
    intro v cid hmem
    cases hmem
  | cons p rest ih =>
    intro v cid hmem
    obtain ⟨c0, cls⟩ := p
    by_cases hc : cid ∈ rest.map Prod.fst
    · exact ih _ cid hc
    · have hc0 : cid = c0 := by
        rw [List.map_cons] at hmem
        rcases List.mem_cons.mp hmem with h | h
        · exact h
        · exact absurd h hc
      subst hc0
      exact passesOnly_fixed_preserved dl cap ext cid rest _
        (fixedCid_processClass dl cap ext cid v)

theorem passesOnly_id (dl : Nat → Bool) (cap : Option Int) (ext : String) :
    ∀ (cs : List (Int × String)) (w : List VRow),
      (∀ cid ∈ cs.map Prod.fst, FixedCid dl cap ext cid w) →
      passesOnly dl cap ext cs w = w := by
  intro cs
  induction cs with
  | nil => intro w _; rfl
  | cons p rest ih =>
    intro w h
    obtain ⟨c0, cls⟩ := p
    have h0 : FixedCid dl cap ext c0 w := h c0 (by simp)
    show passesOnly dl cap ext rest (processClass dl cap ext c0 w).rows = w
    rw [show (processClass dl cap ext c0 w).rows = w from h0]
    exact ih w fun cid hc => h cid (by simp [hc])

theorem classPass_pairs (dl : Nat → Bool) (cap : Option Int) (cid : Int)
    (ext : String) :
    ∀ (v : List VRow) (i count : Nat),
      (classPass dl cap cid ext v i count).rows.map
        (fun r => (r.class_id, r.cls)) = v.map fun r => (r.class_id, r.cls) := by
  intro v
  induction v with
  | nil => intro i count; rfl
  | cons r rest ih =>
    intro i count
    cases h1 : r.class_id == cid with
    | false =>
      rw [classPass_cons_other dl cap cid ext r rest i count h1]
      dsimp only [List.map_cons]
      rw [ih (i + 1) count]
    | true =>
      cases h2 : capReached cap count with
      | true => rw [classPass_cons_break dl cap cid ext r rest i count h1 h2]
      | false =>
        cases h3 : r.download with
        | true =>
          rw [classPass_cons_skip dl cap cid ext r rest i count h1 h2 h3]
          dsimp only [List.map_cons]
          rw [ih (i + 1) count]
        | false =>
          rw [classPass_cons_dl dl cap cid ext r rest i count h1 h2 h3]
          dsimp only [List.map_cons]
          rw [ih (i + 1) (count + cond (dl i) 1 0)]

theorem passesOnly_pairs (dl : Nat → Bool) (cap : Option Int) (ext : String) :
    ∀ (cs : List (Int × String)) (v : List VRow),
      (passesOnly dl cap ext cs v).map (fun r => (r.class_id, r.cls)) =
        v.map fun r => (r.class_id, r.cls) := by
  intro cs
  induction cs with
  | nil => intro v; rfl
  | cons p rest ih =>
    intro v
    obtain ⟨c0, cls⟩ := p
    show (passesOnly dl cap ext rest (processClass dl cap ext c0 v).rows).map
        (fun r => (r.class_id, r.cls)) = v.map fun r => (r.class_id, r.cls)
    rw [ih _]
    exact classPass_pairs dl cap c0 ext v 0 (countDownloaded v c0)

theorem classesOf_passesOnly (dl : Nat → Bool) (cap : Option Int) (ext : String)
    (cs : List (Int × String)) (v : List VRow) :
    classesOf (passesOnly dl cap ext cs v) = classesOf v := by
  unfold classesOf
  rw [passesOnly_pairs]

theorem downloadLoop_fst (dl : Nat → Bool) (cap : Option Int) (ext : String) :
    ∀ (cs : List (Int × String)) (v : List VRow) (fs : FS),
      (downloadLoop dl cap ext cs v fs).1 = passesOnly dl cap ext cs v := by
  intro cs
  induction cs with
  | nil => intro v fs; rfl
  | cons p rest ih =>
    intro v fs
    obtain ⟨cid, cls⟩ := p
    simp only [downloadLoop]
    exact ih _ _

theorem download_videos_videos (dl : Nat → Bool) (v : List VRow) (fs : FS)
    (cap : Option Int) (ext : String) :
    (download_videos dl v fs cap ext).videos =
      passesOnly dl cap ext (classesOf v) v := by
  unfold download_videos
  dsimp only
  split
  · exact downloadLoop_fst dl cap ext (classesOf v) v _
  · split
    · exact downloadLoop_fst dl cap ext (classesOf v) v _
    · exact downloadLoop_fst dl cap ext (classesOf v) v _

/-- C4: running `download_videos` a second time on its own output, with the
same (deterministic) download oracle, leaves the ledger exactly as after the
first run: every row already marked downloaded is skipped, rows that failed
fail again, and a class that hit its cap breaks out immediately, so the
table is a fixpoint. -/
theorem c4_fetcher_idempotent (dl : Nat → Bool) (videos : List VRow)
    (fs fs2 : FS) (cap : Option Int) (ext : String) :
    (download_videos dl (download_videos dl videos fs cap ext).videos fs2 cap
        ext).videos = (download_videos dl videos fs cap ext).videos := by
  rw [download_videos_videos, download_videos_videos, classesOf_passesOnly]
  exact passesOnly_id dl cap ext (classesOf videos) _
    fun cid hc => passesOnly_fixed_mem dl cap ext (classesOf videos) videos cid hc

/-! ## C1: the per-class cap -/

theorem passesOnly_count_le (dl : Nat → Bool) (k : Int) (ext : String) :
    ∀ (cs : List (Int × String)) (v : List VRow) (cid : Int),
      ((countDownloaded (passesOnly dl (some k) ext cs v) cid : Nat) : Int) ≤
        max k ((countDownloaded v cid : Nat) : Int) := by
  intro cs
  induction cs with
  | nil => intro v cid; exact le_max_right _ _
  | cons p rest ih =>
    intro v cid
    obtain ⟨c0, cls⟩ := p
    show ((countDownloaded (passesOnly dl (some k) ext rest
      (processClass dl (some k) ext c0 v).rows) cid : Nat) : Int) ≤ _
    by_cases hc : cid = c0
    · subst hc
      have h1 : ((countDownloaded (processClass dl (some k) ext cid v).rows
          cid : Nat) : Int) ≤ max k ((countDownloaded v cid : Nat) : Int) := by
        have hA := classPass_count_eq dl (some k) cid ext v 0
          (countDownloaded v cid)
        have hH := classPass_count_le dl k cid ext v 0 (countDownloaded v cid)
        have heq : countDownloaded (classPass dl (some k) cid ext v 0
            (countDownloaded v cid)).rows cid =
            (classPass dl (some k) cid ext v 0 (countDownloaded v cid)).count := by
          omega
        show ((countDownloaded (classPass dl (some k) cid ext v 0
          (countDownloaded v cid)).rows cid : Nat) : Int) ≤ _
        rw [heq]
        exact hH
      refine le_trans (ih ((processClass dl (some k) ext cid v).rows) cid) ?_
      refine le_trans (max_le_max (le_refl k) h1) ?_
      rw [← max_assoc, max_self]
    · have heq : countDownloaded (processClass dl (some k) ext c0 v).rows cid =
          countDownloaded v cid :=
        classPass_countDownloaded_other dl (some k) c0 ext cid hc v 0 _
      refine le_trans (ih ((processClass dl (some k) ext c0 v).rows) cid) ?_
      rw [heq]

/-- C1 (amended): with a cap `k` set, a class ends a `download_videos` run
with at most `max k d` downloaded rows, where `d` is the number of its rows
already marked downloaded at the start — in particular at most `k` whenever
`d ≤ k`.  The loop checks `count_by_class >= cap` with `count_by_class`
initialised to `d`, so a class already over the cap keeps its `d` downloaded
rows, which can exceed `k`. -/
theorem c1_cap_bound (dl : Nat → Bool) (videos : List VRow) (fs : FS)
    (k : Int) (ext : String) (cid : Int) :
    ((countDownloaded (download_videos dl videos fs (some k) ext).videos
        cid : Nat) : Int) ≤
      max k ((countDownloaded videos cid : Nat) : Int) := by
  rw [download_videos_videos]
  exact passesOnly_count_le dl k ext (classesOf videos) videos cid

/-- Counterexample to C1 as stated: cap `k = 1`, one undownloaded row
available (`m = 1 ≥ k`), but two rows already downloaded — after the run the
class has 2 rows with `download = true`, more than `k`. -/
theorem c1_counterexample :
    countDownloaded (download_videos (fun _ => true)
      [VRow.mk 0 "c" 0 "t0" "u0" "n0" true, VRow.mk 0 "c" 1 "t1" "u1" "n1" true,
       VRow.mk 0 "c" 2 "t2" "u2" "n2" false]
      (FS.mk true [] [] []) (some 1) ".mp4").videos 0 = 2 ∧
    ¬ countDownloaded (download_videos (fun _ => true)
      [VRow.mk 0 "c" 0 "t0" "u0" "n0" true, VRow.mk 0 "c" 1 "t1" "u1" "n1" true,
       VRow.mk 0 "c" 2 "t2" "u2" "n2" false]
      (FS.mk true [] [] []) (some 1) ".mp4").videos 0 ≤ 1 := by
  exact ⟨by decide, by decide⟩

/-! ## C3: resume support for already-present files -/

theorem downloadLoop_skip_frame (dl : Nat → Bool) (cap : Option Int)
    (ext : String) :
    ∀ (cs : List (Int × String)) (v : List VRow) (fs : FS) (j : Nat) (r : VRow),
      v[j]? = some r → r.download = true →
      (downloadLoop dl cap ext cs v fs).1[j]? = some r ∧
        ¬ j ∈ (downloadLoop dl cap ext cs v fs).2.2.2 := by
  intro cs
  induction cs with
  | nil =>
    intro v fs j r hr _
    exact ⟨hr, fun h => by cases h⟩
  | cons p rest ih =>
    intro v fs j r hr hd
    obtain ⟨c0, cls⟩ := p
    have hstep := classPass_skip_frame dl cap c0 ext v 0
      (countDownloaded v c0) j r hr hd
    rw [Nat.zero_add] at hstep
    obtain ⟨h1, h2⟩ := ih (processClass dl cap ext c0 v).rows
      (stepFS c0 (processClass dl cap ext c0 v).newFiles fs) j r hstep.1 hd
    simp only [downloadLoop]
    refine ⟨h1, fun hmem => ?_⟩
    rcases List.mem_append.mp hmem with h3 | h3
    · exact hstep.2 h3
    · exact h2 h3

theorem download_videos_attempts (dl : Nat → Bool) (v : List VRow) (fs : FS)
    (cap : Option Int) (ext : String) :
    (download_videos dl v fs cap ext).attempts =
      (downloadLoop dl cap ext (classesOf v) v
        { fs with rootExists := true }).2.2.2 := by
  unfold download_videos
  dsimp only
  split
  · rfl
  · split <;> rfl

theorem takeWhile_no_dot (t : List Char) :
    ∀ l : List Char, (∀ c ∈ l, ¬ c = '.') →
      (l ++ '.' :: t).takeWhile (fun c => c != '.') = l := by
  intro l
  induction l with
  | nil =>
    intro _
    simp [List.takeWhile]
  | cons c cs ih =>
    intro h
    have hc : (c != '.') = true := by
      simpa using h c (by simp)
    rw [List.cons_append, List.takeWhile_cons, hc]
    simp only [if_true]
    rw [ih fun a ha => h a (by simp [ha])]

theorem stemOf_name_ext (name ext2 : String) (t : List Char)
    (hext : ext2.toList = '.' :: t)
    (hname : ∀ c ∈ name.toList, ¬ c = '.') :
    stemOf (name ++ ext2) = name := by
  unfold stemOf
  have hd : (name ++ ext2).toList = name.toList ++ ext2.toList :=
    String.data_append ..
  rw [hd, hext, takeWhile_no_dot t name.toList hname]
  rfl

/-- C3 (amended): if some class directory contains a file whose name is the
record's `video_name` followed by a dot-extension, and the `video_name`
itself contains no dot, then the resume scan marks the record downloaded and
the download pass issues no request for it.  (Without the no-dot condition
the scan compares against the part of the file name before its FIRST dot
and misses the record, see the counterexample.) -/
theorem c3_resume_skip (dl : Nat → Bool) (videos : List VRow) (fs : FS)
    (cap : Option Int) (ext ext2 : String) (j : Nat) (r : VRow) (cid : Int)
    (t : List Char)
    (hrow : videos[j]? = some r)
    (hfile : (cid, r.video_name ++ ext2) ∈ fs.files)
    (hext : ext2.toList = '.' :: t)
    (hname : ∀ c ∈ r.video_name.toList, ¬ c = '.') :
    (mainMark fs.files videos)[j]? = some { r with download := true } ∧
      ¬ j ∈ (mainRun dl videos fs cap ext).attempts := by
  have hstem : stemOf (r.video_name ++ ext2) = r.video_name :=
    stemOf_name_ext r.video_name ext2 t hext hname
  have hany : (fs.files.any fun p => r.video_name == stemOf p.2) = true := by
    rw [List.any_eq_true]
    exact ⟨(cid, r.video_name ++ ext2), hfile,
      by rw [hstem]; exact beq_self_eq_true _⟩
  have hmark := mainMark_getElem? fs.files videos j r hrow
  rw [hany] at hmark
  refine ⟨hmark, ?_⟩
  unfold mainRun
  rw [download_videos_attempts]
  exact (downloadLoop_skip_frame dl cap ext
    (classesOf (mainMark fs.files videos)) (mainMark fs.files videos)
    { fs with rootExists := true } j _ hmark rfl).2

/-- Witness for C3 (amended): the file `n.mp4` makes the row with
`video_name = "n"` downloaded and never attempted. -/
theorem c3_resume_skip_witness :
    (mainMark [((0 : Int), "n.mp4")] [VRow.mk 0 "c" 0 "t" "u" "n" false])[0]? =
      some (VRow.mk 0 "c" 0 "t" "u" "n" true) ∧
    ¬ 0 ∈ (mainRun (fun _ => false) [VRow.mk 0 "c" 0 "t" "u" "n" false]
      (FS.mk true [0] [(0, "n.mp4")] []) none ".mp4").attempts := by
  have h := c3_resume_skip (fun _ => false)
    [VRow.mk 0 "c" 0 "t" "u" "n" false] (FS.mk true [0] [(0, "n.mp4")] [])
    none ".mp4" ".mp4" 0 (VRow.mk 0 "c" 0 "t" "u" "n" false) 0
    ['m', 'p', '4'] rfl (by decide) rfl (by decide)
  exact h

/-- Counterexample to C3 as stated: the class directory contains
`a.b.mp4` — exactly `video_name ++ ".mp4"` for the record with
`video_name = "a.b"` — yet the scan leaves the record unmarked (it compares
against the stem `"a"`) and the run issues a download request for it. -/
theorem c3_counterexample :
    (mainMark [((0 : Int), "a.b.mp4")]
      [VRow.mk 0 "c" 0 "t" "u" "a.b" false])[0]? =
      some (VRow.mk 0 "c" 0 "t" "u" "a.b" false) ∧
    (mainRun (fun _ => false) [VRow.mk 0 "c" 0 "t" "u" "a.b" false]
      (FS.mk true [0] [(0, "a.b.mp4")] []) none ".mp4").attempts = [0] := by
  exact ⟨by decide, by decide⟩

/-! ## C6: cleanup of empty directories -/

theorem classPass_newFiles_nil (dl : Nat → Bool) (cap : Option Int) (cid : Int)
    (ext : String) :
    ∀ (v : List VRow) (i count : Nat),
      (∀ (j : Nat) (r : VRow), v[j]? = some r → r.class_id = cid →
        dl (i + j) = false) →
      (classPass dl cap cid ext v i count).newFiles = [] := by
  intro v
  induction v with
  | nil => intro i count _; rfl
  | cons r0 rest ih =>
    intro i count h
    have hshift : ∀ (j : Nat) (r : VRow), rest[j]? = some r →
        r.class_id = cid → dl ((i + 1) + j) = false := by
      intro j r hj hc
      have := h (j + 1) r (by rw [List.getElem?_cons_succ]; exact hj) hc
      rwa [show i + (j + 1) = (i + 1) + j by omega] at this
    cases h1 : r0.class_id == cid with
    | false =>
      rw [classPass_cons_other dl cap cid ext r0 rest i count h1]
      exact ih (i + 1) count hshift
    | true =>
      cases h2 : capReached cap count with
      | true => rw [classPass_cons_break dl cap cid ext r0 rest i count h1 h2]
      | false =>
        cases h3 : r0.download with
        | true =>
          rw [classPass_cons_skip dl cap cid ext r0 rest i count h1 h2 h3]
          exact ih (i + 1) count hshift
        | false =>
          rw [classPass_cons_dl dl cap cid ext r0 rest i count h1 h2 h3]
          dsimp only
          have hd0 : dl i = false := by
            have := h 0 r0 List.getElem?_cons_zero (by simpa using h1)
            rwa [Nat.add_zero] at this
          rw [hd0]
          dsimp only [cond_false]
          rw [List.nil_append]
          exact ih (i + 1) (count + cond false 1 0) (by
            intro j r hj hc
            exact hshift j r hj hc)

theorem classPass_classId_rev (dl : Nat → Bool) (cap : Option Int) (cid : Int)
    (ext : String) (v : List VRow) (i count : Nat) (j : Nat) (s : VRow)
    (hs : (classPass dl cap cid ext v i count).rows[j]? = some s) :
    ∃ r, v[j]? = some r ∧ s.class_id = r.class_id := by
  cases hu : v[j]? with
  | none =>
    rw [List.getElem?_eq_none_iff] at hu
    have hlen := classPass_length dl cap cid ext v i count
    rw [List.getElem?_eq_none (by omega)] at hs
    cases hs
  | some r =>
    obtain ⟨b, hb, _, _⟩ := classPass_getElem? dl cap cid ext v i count j r hu
    have hsb := Option.some.inj (hs.symm.trans hb)
    exact ⟨r, rfl, by rw [hsb]⟩

theorem dlfalse_preserved (dl : Nat → Bool) (cap : Option Int) (ext : String)
    (cid cid' : Int) (v : List VRow)
    (h : ∀ (j : Nat) (r : VRow), v[j]? = some r → r.class_id = cid →
      dl j = false) :
    ∀ (j : Nat) (s : VRow), (processClass dl cap ext cid' v).rows[j]? = some s →
      s.class_id = cid → dl j = false := by
  intro j s hs hc
  obtain ⟨r, hr, hcls⟩ := classPass_classId_rev dl cap cid' ext v 0 _ j s hs
  exact h j r hr (by rw [← hcls]; exact hc)

theorem stepFS_files (cid0 : Int) (nf : List String) (fs : FS) :
    (stepFS cid0 nf fs).files = fs.files ++ nf.map fun f => (cid0, f) := by
  unfold stepFS
  dsimp only
  split <;> rfl

theorem stepFS_rootFiles (cid0 : Int) (nf : List String) (fs : FS) :
    (stepFS cid0 nf fs).rootFiles = fs.rootFiles := by
  unfold stepFS
  dsimp only
  split <;> rfl

theorem stepFS_rootExists (cid0 : Int) (nf : List String) (fs : FS) :
    (stepFS cid0 nf fs).rootExists = fs.rootExists := by
  unfold stepFS
  dsimp only
  split <;> rfl

theorem stepFS_removes_cid (cid : Int) (fs : FS)
    (hfiles : ∀ p ∈ fs.files, ¬ p.1 = cid) :
    ¬ cid ∈ (stepFS cid [] fs).classDirs ∧ (stepFS cid [] fs).files = fs.files := by
  have hfe : (fs.files ++ (List.map (fun f => (cid, f)) ([] : List String))).filter
      (fun p => p.1 == cid) = [] := by
    rw [List.map_nil, List.append_nil]
    rw [List.filter_eq_nil]
    intro p hp
    simpa using hfiles p hp
  constructor
  · intro hmem
    unfold stepFS at hmem
    dsimp only at hmem
    rw [if_pos (by rw [hfe]; rfl)] at hmem
    dsimp only at hmem
    obtain ⟨_, hpred⟩ := List.mem_filter.mp hmem
    simp at hpred
  · rw [stepFS_files, List.map_nil, List.append_nil]

theorem stepFS_not_mem (cid cid0 : Int) (nf : List String) (fs : FS)
    (hne : ¬ cid0 = cid) (h : ¬ cid ∈ fs.classDirs) :
    ¬ cid ∈ (stepFS cid0 nf fs).classDirs := by
  intro hmem
  unfold stepFS at hmem
  dsimp only at hmem
  have hbase : ¬ cid ∈ (if cid0 ∈ fs.classDirs then fs.classDirs
      else fs.classDirs ++ [cid0]) := by
    split
    · exact h
    · intro hm
      rcases List.mem_append.mp hm with h1 | h1
      · exact h h1
      · rw [List.mem_singleton] at h1
        exact hne h1.symm
  split at hmem
  · dsimp only at hmem
    exact hbase (List.mem_filter.mp hmem).1
  · exact hbase hmem

theorem stepFS_files_no_cid (cid cid0 : Int) (nf : List String) (fs : FS)
    (hne : ¬ cid0 = cid) (h : ∀ p ∈ fs.files, ¬ p.1 = cid) :
    ∀ p ∈ (stepFS cid0 nf fs).files, ¬ p.1 = cid := by
  intro p hp
  rw [stepFS_files] at hp
  rcases List.mem_append.mp hp with h1 | h1
  · exact h p h1
  · obtain ⟨f, _, hf⟩ := List.mem_map.mp h1
    rw [← hf]
    exact hne

theorem downloadLoop_class_cleanup (dl : Nat → Bool) (cap : Option Int)
    (ext : String) (cid : Int) :
    ∀ (cs : List (Int × String)) (v : List VRow) (fs : FS),
      (∀ p ∈ fs.files, ¬ p.1 = cid) →
      (∀ (j : Nat) (r : VRow), v[j]? = some r → r.class_id = cid →
        dl j = false) →
      (∀ p ∈ (downloadLoop dl cap ext cs v fs).2.1.files, ¬ p.1 = cid) ∧
      ((cid ∈ cs.map Prod.fst ∨ ¬ cid ∈ fs.classDirs) →
        ¬ cid ∈ (downloadLoop dl cap ext cs v fs).2.1.classDirs) := by
  intro cs
  induction cs with
  | nil =>
    intro v fs hfiles _
    refine ⟨hfiles, fun hor => ?_⟩
    rcases hor with h | h
    · cases h
    · exact h
  | cons p rest ih =>
    intro v fs hfiles hdl
    obtain ⟨c0, cls⟩ := p
    simp only [downloadLoop]
    have hdl' := dlfalse_preserved dl cap ext cid c0 v hdl
    by_cases hc0 : c0 = cid
    · subst hc0
      have hnf : (processClass dl cap ext c0 v).newFiles = [] := by
        unfold processClass
        refine classPass_newFiles_nil dl cap c0 ext v 0 _ ?_
        intro j r hj hc
        rw [Nat.zero_add]
        exact hdl j r hj hc
      have hrm := stepFS_removes_cid c0 fs hfiles
      have hfiles' : ∀ p ∈ (stepFS c0 (processClass dl cap ext c0 v).newFiles
          fs).files, ¬ p.1 = c0 := by
        rw [hnf]
        rw [hrm.2]
        exact hfiles
      obtain ⟨ih1, ih2⟩ := ih (processClass dl cap ext c0 v).rows
        (stepFS c0 (processClass dl cap ext c0 v).newFiles fs) hfiles' hdl'
      refine ⟨ih1, fun _ => ih2 (.inr ?_)⟩
      rw [hnf]
      exact hrm.1
    · have hfiles' := stepFS_files_no_cid cid c0
        (processClass dl cap ext c0 v).newFiles fs hc0 hfiles
      obtain ⟨ih1, ih2⟩ := ih (processClass dl cap ext c0 v).rows
        (stepFS c0 (processClass dl cap ext c0 v).newFiles fs) hfiles' hdl'
      refine ⟨ih1, fun hor => ?_⟩
      rcases hor with hmem | hnot
      · rw [List.map_cons] at hmem
        rcases List.mem_cons.mp hmem with h1 | h1
        · exact absurd h1.symm hc0
        · exact ih2 (.inl h1)
      · exact ih2 (.inr (stepFS_not_mem cid c0
          (processClass dl cap ext c0 v).newFiles fs hc0 hnot))

theorem classPass_all_false (dl : Nat → Bool) (cap : Option Int) (cid : Int)
    (ext : String) (hdl : ∀ j, dl j = false) :
    ∀ (v : List VRow) (i count : Nat), (∀ r ∈ v, r.download = false) →
      (∀ r ∈ (classPass dl cap cid ext v i count).rows, r.download = false) ∧
      (classPass dl cap cid ext v i count).count = count := by
  intro v
  induction v with
  | nil => intro i count _; exact ⟨fun r hr => (nomatch hr), rfl⟩
  | cons r0 rest ih =>
    intro i count h
    have h0 : r0.download = false := h r0 (by simp)
    have htail : ∀ r ∈ rest, r.download = false := fun r hr => h r (by simp [hr])
    cases h1 : r0.class_id == cid with
    | false =>
      rw [classPass_cons_other dl cap cid ext r0 rest i count h1]
      dsimp only
      obtain ⟨ha, hb⟩ := ih (i + 1) count htail
      refine ⟨fun r hr => ?_, hb⟩
      rcases List.mem_cons.mp hr with h2 | h2
      · rw [h2]; exact h0
      · exact ha r h2
    | true =>
      cases h2 : capReached cap count with
      | true =>
        rw [classPass_cons_break dl cap cid ext r0 rest i count h1 h2]
        exact ⟨h, rfl⟩
      | false =>
        cases h3 : r0.download with
        | true => rw [h3] at h0; cases h0
        | false =>
          rw [classPass_cons_dl dl cap cid ext r0 rest i count h1 h2 h3]
          dsimp only
          rw [hdl i]
          dsimp only [cond_false]
          rw [Nat.add_zero]
          obtain ⟨ha, hb⟩ := ih (i + 1) count htail
          refine ⟨fun r hr => ?_, hb⟩
          rcases List.mem_cons.mp hr with h4 | h4
          · rw [h4]
          · exact ha r h4

theorem countDownloaded_all_false (v : List VRow) (cid : Int)
    (h : ∀ r ∈ v, r.download = false) : countDownloaded v cid = 0 := by
  unfold countDownloaded
  rw [List.filter_eq_nil.mpr]
  · rfl
  · intro r hr
    simp [h r hr]

theorem stepFS_clean (cid0 : Int) (fs : FS) (hfe : fs.files = []) :
    (stepFS cid0 [] fs).files = [] ∧
    ∀ c ∈ (stepFS cid0 [] fs).classDirs, c ∈ fs.classDirs ∧ ¬ c = cid0 := by
  constructor
  · rw [stepFS_files, hfe]
    rfl
  · intro c hc
    unfold stepFS at hc
    dsimp only at hc
    rw [if_pos (by rw [hfe]; rfl)] at hc
    dsimp only at hc
    obtain ⟨hmem, hpred⟩ := List.mem_filter.mp hc
    have hne : ¬ c = cid0 := by simpa using hpred
    refine ⟨?_, hne⟩
    revert hmem
    split
    · exact fun hmem => hmem
    · intro hmem
      rcases List.mem_append.mp hmem with h1 | h1
      · exact h1
      · rw [List.mem_singleton] at h1
        exact absurd h1 hne

theorem downloadLoop_all_clean (dl : Nat → Bool) (cap : Option Int)
    (ext : String) (hdl : ∀ j, dl j = false) :
    ∀ (cs : List (Int × String)) (v : List VRow) (fs : FS),
      (∀ r ∈ v, r.download = false) → fs.files = [] →
      (∀ c ∈ fs.classDirs, c ∈ cs.map Prod.fst) →
      (downloadLoop dl cap ext cs v fs).2.1.files = [] ∧
      (downloadLoop dl cap ext cs v fs).2.1.classDirs = [] ∧
      (downloadLoop dl cap ext cs v fs).2.1.rootFiles = fs.rootFiles ∧
      (downloadLoop dl cap ext cs v fs).2.1.rootExists = fs.rootExists ∧
      (∀ t ∈ (downloadLoop dl cap ext cs v fs).2.2.1, t.2.2 = 0) := by
  intro cs
  induction cs with
  | nil =>
    intro v fs _ hfe hsub
    refine ⟨hfe, ?_, rfl, rfl, fun t ht => by cases ht⟩
    rw [List.eq_nil_iff_forall_not_mem]
    intro c hc
    cases hsub c hc
  | cons p rest ih =>
    intro v fs hall hfe hsub
    obtain ⟨c0, cls⟩ := p
    simp only [downloadLoop]
    have hap := classPass_all_false dl cap c0 ext hdl v 0
      (countDownloaded v c0) hall
    have hcnt0 : countDownloaded v c0 = 0 := countDownloaded_all_false v c0 hall
    have hocount : (processClass dl cap ext c0 v).count = 0 := by
      unfold processClass
      rw [hap.2, hcnt0]
    have hnf : (processClass dl cap ext c0 v).newFiles = [] := by
      unfold processClass
      exact classPass_newFiles_nil dl cap c0 ext v 0 _
        fun j r _ _ => hdl (0 + j)
    have hsc := stepFS_clean c0 fs hfe
    have hsf_files : (stepFS c0 (processClass dl cap ext c0 v).newFiles fs).files
        = [] := by
      rw [hnf]
      exact hsc.1
    have hsf_dirs : ∀ c ∈ (stepFS c0 (processClass dl cap ext c0 v).newFiles
        fs).classDirs, c ∈ rest.map Prod.fst := by
      rw [hnf]
      intro c hc
      obtain ⟨hmem, hne⟩ := hsc.2 c hc
      have := hsub c hmem
      rw [List.map_cons] at this
      rcases List.mem_cons.mp this with h1 | h1
      · exact absurd h1 hne
      · exact h1
    obtain ⟨ihf, ihd, ihrf, ihre, ihcnt⟩ := ih (processClass dl cap ext c0 v).rows
      (stepFS c0 (processClass dl cap ext c0 v).newFiles fs) hap.1
      hsf_files hsf_dirs
    refine ⟨ihf, ihd, ?_, ?_, fun t ht => ?_⟩
    · rw [ihrf, hnf, stepFS_rootFiles]
    · rw [ihre, hnf, stepFS_rootExists]
    · rcases List.mem_cons.mp ht with h1 | h1
      · rw [h1]
        exact hocount
      · exact ihcnt t h1

theorem download_videos_fs_classDirs (dl : Nat → Bool) (v : List VRow)
    (fs : FS) (cap : Option Int) (ext : String) :
    (download_videos dl v fs cap ext).fs.classDirs =
      (downloadLoop dl cap ext (classesOf v) v
        { fs with rootExists := true }).2.1.classDirs := by
  unfold download_videos
  dsimp only
  split
  · rfl
  · split <;> rfl

theorem foldl_add_eq_of_zero : ∀ (l : List Nat), (∀ x ∈ l, x = 0) →
    ∀ a : Nat, l.foldl (· + ·) a = a := by
  intro l
  induction l with
  | nil => intro _ a; rfl
  | cons x xs ih =>
    intro h a
    rw [List.foldl_cons, h x (by simp), Nat.add_zero]
    exact ih (fun y hy => h y (by simp [hy])) a

theorem download_videos_total_zero (dl : Nat → Bool) (v : List VRow) (fs : FS)
    (cap : Option Int) (ext : String)
    (h0 : ∀ t ∈ (downloadLoop dl cap ext (classesOf v) v
      { fs with rootExists := true }).2.2.1, t.2.2 = 0)
    (h1 : (downloadLoop dl cap ext (classesOf v) v
      { fs with rootExists := true }).2.1.classDirs = [])
    (h2 : (downloadLoop dl cap ext (classesOf v) v
      { fs with rootExists := true }).2.1.rootFiles = []) :
    (download_videos dl v fs cap ext).fs.rootExists = false ∧
    (download_videos dl v fs cap ext).crashed = false := by
  have htot : ((downloadLoop dl cap ext (classesOf v) v
      { fs with rootExists := true }).2.2.1.map fun t => t.2.2).foldl
        (· + ·) 0 = 0 := by
    refine foldl_add_eq_of_zero _ ?_ 0
    intro x hx
    obtain ⟨t, ht, hxe⟩ := List.mem_map.mp hx
    rw [← hxe]
    exact h0 t ht
  unfold download_videos
  dsimp only
  rw [if_neg (by rw [htot]; omega)]
  rw [if_pos (by rw [h1, h2]; rfl)]
  exact ⟨rfl, rfl⟩

/-- C6 (amended): after a `download_videos` run, (1) a class whose directory
held no files at the start and whose every download attempt failed ends with
its directory removed — provided the class appears in the ledger; and (2)
when all downloads fail, no row was marked downloaded at the start, and the
output tree was empty apart from (possibly) empty class directories of
ledger classes, the root directory is removed and the final `os.rmdir` does
not raise.  (Without those emptiness conditions the `os.rmdir` calls fail:
a pre-existing file keeps its class directory alive and then makes the root
removal raise, see the counterexample.) -/
theorem c6_cleanup (dl : Nat → Bool) (videos : List VRow) (fs : FS)
    (cap : Option Int) (ext : String) (cid : Int) :
    ((∀ p ∈ fs.files, ¬ p.1 = cid) →
     (∀ (j : Nat) (r : VRow), videos[j]? = some r → r.class_id = cid →
       dl j = false) →
     cid ∈ (classesOf videos).map Prod.fst →
     ¬ cid ∈ (download_videos dl videos fs cap ext).fs.classDirs) ∧
    ((∀ j, dl j = false) → (∀ r ∈ videos, r.download = false) →
     fs.files = [] → fs.rootFiles = [] →
     (∀ c ∈ fs.classDirs, c ∈ (classesOf videos).map Prod.fst) →
     (download_videos dl videos fs cap ext).fs.rootExists = false ∧
     (download_videos dl videos fs cap ext).crashed = false) := by
  constructor
  · intro hfiles hdl hmem
    rw [download_videos_fs_classDirs]
    exact (downloadLoop_class_cleanup dl cap ext cid (classesOf videos) videos
      { fs with rootExists := true } hfiles hdl).2 (.inl hmem)
  · intro hdl hall hfe hrf hsub
    have hclean := downloadLoop_all_clean dl cap ext hdl (classesOf videos)
      videos { fs with rootExists := true } hall hfe hsub
    refine download_videos_total_zero dl videos fs cap ext
      hclean.2.2.2.2 hclean.2.1 ?_
    rw [hclean.2.2.1]
    exact hrf

/-- Witness for C6 (amended) on a one-row ledger with failing downloads and
an initially empty output tree. -/
theorem c6_cleanup_witness :
    ¬ (0 : Int) ∈ (download_videos (fun _ => false)
      [VRow.mk 0 "c" 0 "t" "u" "n" false] (FS.mk true [] [] []) none
      ".mp4").fs.classDirs ∧
    ((download_videos (fun _ => false) [VRow.mk 0 "c" 0 "t" "u" "n" false]
      (FS.mk true [] [] []) none ".mp4").fs.rootExists = false ∧
     (download_videos (fun _ => false) [VRow.mk 0 "c" 0 "t" "u" "n" false]
      (FS.mk true [] [] []) none ".mp4").crashed = false) :=
  ⟨(c6_cleanup (fun _ => false) [VRow.mk 0 "c" 0 "t" "u" "n" false]
      (FS.mk true [] [] []) none ".mp4" 0).1
      (fun p hp => (nomatch hp)) (fun _ _ _ _ => rfl) (by decide),
   (c6_cleanup (fun _ => false) [VRow.mk 0 "c" 0 "t" "u" "n" false]
      (FS.mk true [] [] []) none ".mp4" 0).2
      (fun _ => rfl) (by decide) rfl rfl (fun c hc => (nomatch hc))⟩

/-- Counterexample to C6 as stated: class 0's directory holds a pre-existing
file `junk.txt` that matches no record (the single record has
`video_name = "n"` and is still unmarked), every download attempt fails,
yet after the run the class directory still exists — and the root removal
raises, so the root directory also still exists. -/
theorem c6_counterexample :
    (download_videos (fun _ => false) [VRow.mk 0 "c" 0 "t" "u" "n" false]
      (FS.mk true [0] [(0, "junk.txt")] []) none ".mp4").fs.classDirs = [0] ∧
    (download_videos (fun _ => false) [VRow.mk 0 "c" 0 "t" "u" "n" false]
      (FS.mk true [0] [(0, "junk.txt")] []) none ".mp4").fs.rootExists =
      true ∧
    (download_videos (fun _ => false) [VRow.mk 0 "c" 0 "t" "u" "n" false]
      (FS.mk true [0] [(0, "junk.txt")] []) none ".mp4").crashed = true := by
  exact ⟨by decide, by decide, by decide⟩

end VideoScraper
